import Mathlib

/-!
Verification of the berry lockfile parser (crates/berry-core) against its
specification.  The Rust sources are shallowly embedded: strings become
`List Char`, each nom parser becomes a function `Str → PR α` where `PR`
distinguishes success (with the remaining input), a recoverable nom error,
and a process abort (Rust `panic!` / failed `assert_eq!`).
-/

set_option autoImplicit false

namespace Berry

/-- Input and captured text: Rust `&str` slices, embedded as character lists. -/
abbrev Str := List Char

/-- Result of a parser: `ok rest val` mirrors nom's `Ok((rest, val))`,
`err` a recoverable `nom::Err`, and `panic` a Rust panic/abort. -/
inductive PR (α : Type) where
  | ok (rest : Str) (val : α)
  | err
  | panic
  deriving DecidableEq, Repr

/-- Sequencing of parser results, threading the remaining input. -/
def PR.bind {α β : Type} (x : PR α) (f : Str → α → PR β) : PR β :=
  match x with
  | .ok r v => f r v
  | .err => .err
  | .panic => .panic

/-- nom `tag`: consume an exact literal prefix. -/
def tagP : Str → Str → PR Unit
  | [], s => .ok s ()
  | _ :: _, [] => .err
  | c :: t, d :: s => if d = c then tagP t s else .err

/-- nom `char`: consume one expected character. -/
def charP (c : Char) : Str → PR Unit
  | [] => .err
  | d :: s => if d = c then .ok s () else .err

/-- nom `take_while`: longest (possibly empty) prefix satisfying `p`. -/
def takeWhileP (p : Char → Bool) (s : Str) : PR Str :=
  .ok (s.dropWhile p) (s.takeWhile p)

/-- nom `take_while1`: longest prefix satisfying `p`, failing if empty. -/
def takeWhile1P (p : Char → Bool) (s : Str) : PR Str :=
  match s.takeWhile p with
  | [] => .err
  | c :: t => .ok (s.dropWhile p) (c :: t)

/-- nom `is_not bad`: longest nonempty prefix avoiding the characters of `bad`. -/
def isNotP (bad : Str) (s : Str) : PR Str :=
  takeWhile1P (fun c => !(bad.contains c)) s

/-- nom `space0`: zero or more spaces/tabs. -/
def space0P (s : Str) : PR Str :=
  takeWhileP (fun c => c == ' ' || c == '\t') s

/-- nom `space1`: one or more spaces/tabs. -/
def space1P (s : Str) : PR Str :=
  takeWhile1P (fun c => c == ' ' || c == '\t') s

/-- Boolean prefix test used by substring search. -/
def isPre : Str → Str → Bool
  | [], _ => true
  | _ :: _, [] => false
  | a :: t, b :: s => a == b && isPre t s

/-- Index of the first occurrence of `needle` as a substring, if any. -/
def findSub (needle : Str) : Str → Option Nat
  | [] => if needle.isEmpty then some 0 else none
  | c :: r =>
    if isPre needle (c :: r) then some 0
    else (findSub needle r).map (· + 1)

/-- nom `take_until t`: consume up to (excluding) the first occurrence of `t`. -/
def takeUntilP (t : Str) (s : Str) : PR Str :=
  match findSub t s with
  | some i => .ok (s.drop i) (s.take i)
  | none => .err

/-- nom `opt`: turn an inner error into a `none` result without consuming. -/
def optP {α : Type} (p : Str → PR α) (s : Str) : PR (Option α) :=
  match p s with
  | .ok r v => .ok r (some v)
  | .err => .ok s none
  | .panic => .panic

/-- Map over the value of a successful parse (nom `map`). -/
def mapP {α β : Type} (x : PR α) (f : α → β) : PR β :=
  match x with
  | .ok r v => .ok r (f v)
  | .err => .err
  | .panic => .panic

/-- Rust `if let Ok(..) = p { return .. }` fallthrough: keep the first
success, otherwise try the next alternative. -/
def orElseP {α : Type} (x : PR α) (y : Unit → PR α) : PR α :=
  match x with
  | .ok r v => .ok r v
  | _ => y ()

/-- Fuelled worker for `many0P`; nom's `many0`/`fold_many0`, including the
error raised when the inner parser succeeds without consuming input. -/
def manyF {α : Type} (p : Str → PR α) : Nat → Str → PR (List α)
  | 0, _ => .err
  | n + 1, s =>
    match p s with
    | .err => .ok s []
    | .panic => .panic
    | .ok r v =>
      if s.length ≤ r.length then .err
      else
        match manyF p n r with
        | .ok r' vs => .ok r' (v :: vs)
        | .err => .err
        | .panic => .panic

/-- nom `many0`/`fold_many0` collecting the parsed values. -/
def many0P {α : Type} (p : Str → PR α) (s : Str) : PR (List α) :=
  manyF p (s.length + 1) s

/-- Index of the first character satisfying `p`. -/
def firstIdx (p : Char → Bool) : Str → Option Nat
  | [] => none
  | c :: r => if p c then some 0 else (firstIdx p r).map (· + 1)

/-- Rust `str::trim_matches(ch)`: repeatedly strip `ch` from both ends. -/
def trimMatches (ch : Char) (s : Str) : Str :=
  ((s.dropWhile (· == ch)).reverse.dropWhile (· == ch)).reverse

/-- Whitespace recognized by Rust `str::trim` (its ASCII part). -/
def isRustWs (c : Char) : Bool :=
  c == ' ' || c == '\t' || c == '\n' || c == '\r' || c == '\x0b' || c == '\x0c'

/-- Rust `str::trim`: strip whitespace from both ends. -/
def rustTrim (s : Str) : Str :=
  ((s.dropWhile isRustWs).reverse.dropWhile isRustWs).reverse

/-- Rust `char::is_alphanumeric` restricted to ASCII; the lockfile format is
ASCII for all syntactic characters (spec §6), so the restriction is faithful
on the format's inputs. -/
def isAlphanumeric (c : Char) : Bool := c.isAlpha || c.isDigit

/-- Characters of package-name segments and protocols (`parse.rs`). -/
def identChar (c : Char) : Bool := isAlphanumeric c || c == '-' || c == '_'

/-- Characters allowed in a descriptor range (`|c| c != ',' && c != '"'`). -/
def rangeChar (c : Char) : Bool := c != ',' && c != '"'

/-- Characters of dependency/bin/meta names in sub-block lines. -/
def depNameChar (c : Char) : Bool :=
  isAlphanumeric c || c == '-' || c == '_' || c == '@' || c == '/'

/-- `ident.rs`: scope + name identity of a package. -/
structure Ident where
  scope : Option Str
  name : Str
  deriving DecidableEq, Repr

/-- `ident.rs`: raw range text with the precomputed index of the first `:`. -/
structure Range where
  raw : Str
  protocol_sep_index : Option Nat
  deriving DecidableEq, Repr

/-- `Range::from_raw`: store the raw text and the index of the first colon. -/
def Range.from_raw (raw : Str) : Range :=
  ⟨raw, firstIdx (· == ':') raw⟩

/-- `Range::protocol_str`: text before the first colon, when present. -/
def Range.protocol_str (r : Range) : Option Str :=
  r.protocol_sep_index.map (fun i => r.raw.take i)

/-- `Range::selector`: text after the first colon, or the whole raw text. -/
def Range.selector (r : Range) : Str :=
  match r.protocol_sep_index with
  | some i => r.raw.drop (i + 1)
  | none => r.raw

/-- `ident.rs`: an `Ident` together with a `Range`. -/
structure Descriptor where
  ident : Ident
  range : Range
  deriving DecidableEq, Repr

/-- `Descriptor::new`: build the range from its raw text. -/
def Descriptor.new (ident : Ident) (range_raw : Str) : Descriptor :=
  ⟨ident, Range.from_raw range_raw⟩

/-- `Descriptor::range`: the raw range string. -/
def Descriptor.rangeRaw (d : Descriptor) : Str := d.range.raw

/-- `package.rs`: `LinkType`. -/
inductive LinkType where
  | hard
  | soft
  deriving DecidableEq, Repr

/-- `LinkType::try_from(&str)`: `"hard"`/`"soft"`, failure otherwise. -/
def LinkType.tryFrom (s : Str) : Option LinkType :=
  if s = "hard".toList then some .hard
  else if s = "soft".toList then some .soft
  else none

/-- `metadata.rs`: per-dependency install metadata. -/
structure DependencyMeta where
  built : Option Bool
  optional : Option Bool
  unplugged : Option Bool
  deriving DecidableEq, Repr

/-- `metadata.rs`: per-peer-dependency metadata. -/
structure PeerDependencyMeta where
  optional : Bool
  deriving DecidableEq, Repr

/-- A Rust `HashMap` insertion: last-wins on an existing key. -/
def insertMap {κ ν : Type} [DecidableEq κ] : List (κ × ν) → κ → ν → List (κ × ν)
  | [], k, v => [(k, v)]
  | (k', v') :: t, k, v =>
    if k' = k then (k, v) :: t else (k', v') :: insertMap t k v

/-- Lookup in the association-list model of a `HashMap`. -/
def lookupMap {κ ν : Type} [DecidableEq κ] : List (κ × ν) → κ → Option ν
  | [], _ => none
  | (k', v) :: t, k => if k' = k then some v else lookupMap t k

/-- `package.rs`: the parsed body of one lockfile block. -/
structure Package where
  version : Option Str
  resolution : Option Str
  language_name : Str
  link_type : LinkType
  checksum : Option Str
  conditions : Option Str
  dependencies : List (Ident × Descriptor)
  dependencies_meta : List (Ident × Option DependencyMeta)
  peer_dependencies : List (Ident × Descriptor)
  peer_dependencies_meta : List (Ident × PeerDependencyMeta)
  bin : List (Str × Str)
  deriving DecidableEq, Repr

/-- `Package::new`: empty package with the given language name and link type. -/
def Package.new (language_name : Str) (link_type : LinkType) : Package :=
  ⟨none, none, language_name, link_type, none, none, [], [], [], [], []⟩

/-- `lockfile.rs`: lockfile version and cache key. -/
structure Metadata where
  version : Str
  cache_key : Str
  deriving DecidableEq, Repr

/-- `lockfile.rs`: the parsed lockfile. -/
structure Lockfile where
  metadata : Metadata
  entries : List Package
  deriving DecidableEq, Repr

/-- `lockfile.rs` `parse_metadata_line`: `space1`, key of alphabetic or `_`
characters, `:`, `space1`, value stopping before `\r`/`\n`, newline. -/
def parse_metadata_line (s : Str) : PR (Str × Str) :=
  (space1P s).bind fun s _ =>
  (takeWhileP (fun c => c.isAlpha || c == '_') s).bind fun s key =>
  (charP ':' s).bind fun s _ =>
  (space1P s).bind fun s _ =>
  (isNotP ['\r', '\n'] s).bind fun s v =>
  (charP '\n' s).bind fun s _ =>
  .ok s (key, v)

/-- `lockfile.rs` `parse_metadata`: the `__metadata:` header followed by two
metadata lines, bound positionally (first → version, second → cacheKey). -/
def parse_metadata (s : Str) : PR Metadata :=
  (tagP "__metadata:".toList s).bind fun s _ =>
  (charP '\n' s).bind fun s _ =>
  (parse_metadata_line s).bind fun s l1 =>
  (parse_metadata_line s).bind fun s l2 =>
  .ok s ⟨trimMatches '"' l1.2, trimMatches '"' l2.2⟩

/-- Modelled from the spec: one banner line. `parse_yarn_header` is imported
by `parse_lockfile` from the lockfile module but its definition is not among
the sources; spec §4.1/§4.3 define the header as an arbitrary prefix of
comment lines (`#` at column 0, running to the terminator) and blank lines
(spaces/tabs only, `\r` tolerated before `\n`), skipped and not reported. -/
def headerLine (s : Str) : PR Unit :=
  match (charP '#' s).bind fun s _ =>
        (takeWhileP (fun c => c != '\n') s).bind fun s _ =>
        (charP '\n' s).bind fun s _ => .ok s () with
  | .ok r v => .ok r v
  | _ =>
    (space0P s).bind fun s _ =>
    (optP (charP '\r') s).bind fun s _ =>
    (charP '\n' s).bind fun s _ => .ok s ()

/-- Modelled from the spec: `parse_yarn_header` skips the banner, an
arbitrary prefix of comment and blank lines (spec §4.1/§4.3); its Rust
definition is missing from the sources (only its caller is present). -/
def parse_yarn_header (s : Str) : PR (Unit × Unit) :=
  (many0P headerLine s).bind fun s _ => .ok s ((), ())

/-- `parse.rs` `parse_package_name`, scoped alternative:
`@segment/segment`, recognized as the consumed slice. -/
def parse_scoped_name (s : Str) : PR Str :=
  (charP '@' s).bind fun s _ =>
  (takeWhile1P identChar s).bind fun s seg1 =>
  (charP '/' s).bind fun s _ =>
  (takeWhile1P identChar s).bind fun s seg2 =>
  .ok s ('@' :: seg1 ++ '/' :: seg2)

/-- `parse.rs` `parse_package_name`: scoped (`@scope/name`) or simple name. -/
def parse_package_name (s : Str) : PR Str :=
  match parse_scoped_name s with
  | .ok r v => .ok r v
  | _ => takeWhile1P identChar s

/-- `parse.rs` `parse_protocol`: protocol word. -/
def parse_protocol (s : Str) : PR Str :=
  takeWhile1P identChar s

/-- `parse.rs` `parse_patch_range`: anything up to `,` or `"`. -/
def parse_patch_range (s : Str) : PR Str :=
  takeWhile1P rangeChar s

/-- First attempt of `parse_single_descriptor`:
`name '@' protocol ':' patch_range`. -/
def psdPatch (s : Str) : PR (Str × Str × Str) :=
  (parse_package_name s).bind fun s n =>
  (charP '@' s).bind fun s _ =>
  (parse_protocol s).bind fun s p =>
  (charP ':' s).bind fun s _ =>
  (parse_patch_range s).bind fun s rg =>
  .ok s (n, p, rg)

/-- Second attempt of `parse_single_descriptor`:
`name '@' protocol ':' range`. -/
def psdProto (s : Str) : PR (Str × Str × Str) :=
  (parse_package_name s).bind fun s n =>
  (charP '@' s).bind fun s _ =>
  (parse_protocol s).bind fun s p =>
  (charP ':' s).bind fun s _ =>
  (takeWhile1P rangeChar s).bind fun s rg =>
  .ok s (n, p, rg)

/-- Third attempt of `parse_single_descriptor`:
`name '@' range`, empty protocol. -/
def psdSimple (s : Str) : PR (Str × Str × Str) :=
  (parse_package_name s).bind fun s n =>
  (charP '@' s).bind fun s _ =>
  (takeWhile1P rangeChar s).bind fun s rg =>
  .ok s (n, [], rg)

/-- `parse.rs` `parse_single_descriptor`: the patch attempt is kept only when
the protocol is literally `patch`; otherwise the plain protocol form and the
bare range form are tried in turn. -/
def parse_single_descriptor (s : Str) : PR (Str × Str × Str) :=
  match psdPatch s with
  | .ok r (n, p, rg) =>
    if p = "patch".toList then .ok r (n, p, rg)
    else
      match psdProto s with
      | .ok r' v => .ok r' v
      | _ => psdSimple s
  | _ =>
    match psdProto s with
    | .ok r' v => .ok r' v
    | _ => psdSimple s

/-- Separator-prefixed descriptor inside `fold_many0`:
`space0 ',' space0` then a single descriptor. -/
def psdSep (s : Str) : PR (Str × Str × Str) :=
  (space0P s).bind fun s _ =>
  (charP ',' s).bind fun s _ =>
  (space0P s).bind fun s _ =>
  parse_single_descriptor s

/-- `parse.rs` `parse_name_to_ident`: split `@scope/name`, treating a
malformed scoped name (no `/` after `@`) as a plain name. -/
def parse_name_to_ident (name_part : Str) : Ident :=
  match name_part with
  | '@' :: stripped =>
    match firstIdx (· == '/') stripped with
    | some i => ⟨some ('@' :: stripped.take i), stripped.drop (i + 1)⟩
    | none => ⟨none, name_part⟩
  | _ => ⟨none, name_part⟩

/-- `parse.rs` `parse_dependency_name_to_ident`: same fallback logic as
`parse_name_to_ident`, applied to dependency names. -/
def parse_dependency_name_to_ident (dep_name : Str) : Ident :=
  match dep_name with
  | '@' :: stripped =>
    match firstIdx (· == '/') stripped with
    | some i => ⟨some ('@' :: stripped.take i), stripped.drop (i + 1)⟩
    | none => ⟨none, dep_name⟩
  | _ => ⟨none, dep_name⟩

/-- Build one `Descriptor` from the borrowed pieces, as in the closure of
`parse_descriptor_line`: prepend `protocol ':'` unless the protocol is empty. -/
def mkDescriptor (t : Str × Str × Str) : Descriptor :=
  Descriptor.new (parse_name_to_ident t.1)
    (if t.2.1.isEmpty then t.2.2 else t.2.1 ++ ':' :: t.2.2)

/-- `parse.rs` `parse_descriptor_line`: the quoted key text up to `":`, split
into comma-separated descriptors; the trailing `assert_eq!(remaining, "")`
becomes a panic outcome. -/
def parse_descriptor_line (s : Str) : PR (List Descriptor) :=
  (charP '"' s).bind fun s _ =>
  (takeUntilP ['"', ':'] s).bind fun s dstr =>
  (tagP ['"', ':'] s).bind fun rest _ =>
  (parse_single_descriptor dstr).bind fun rem first =>
  (many0P psdSep rem).bind fun remaining others =>
  if remaining.isEmpty then .ok rest ((first :: others).map mkDescriptor)
  else .panic

/-- `parse.rs` `parse_simple_property`: two-space indent, key, colon, spaces,
value stopping before `\r`/`\n`, newline. -/
def parse_simple_property (s : Str) : PR (Str × Str) :=
  (tagP "  ".toList s).bind fun s _ =>
  (takeWhile1P (fun c => isAlphanumeric c || c == '_') s).bind fun s key =>
  (charP ':' s).bind fun s _ =>
  (space1P s).bind fun s _ =>
  (isNotP ['\r', '\n'] s).bind fun s v =>
  (charP '\n' s).bind fun s _ =>
  .ok s (key, v)

/-- `parse.rs` `parse_dependency_line`: four-space indent, quoted or bare
name, colon, spaces, the rest of the line, newline; the range is trimmed and
stripped of surrounding quotes. -/
def parse_dependency_line (s : Str) : PR (Str × Str) :=
  (tagP "    ".toList s).bind fun s _ =>
  (match (charP '"' s).bind fun s _ =>
         (takeWhile1P depNameChar s).bind fun s n =>
         (charP '"' s).bind fun s _ => PR.ok s n with
   | .ok r v => PR.ok r v
   | _ => takeWhile1P depNameChar s).bind fun s n =>
  (charP ':' s).bind fun s _ =>
  (space1P s).bind fun s _ =>
  (takeUntilP ['\n'] s).bind fun s rg =>
  (charP '\n' s).bind fun s _ =>
  .ok s (n, trimMatches '"' (rustTrim rg))

/-- `parse.rs` `parse_bin_line`: four-space indent, name, colon, spaces,
value stopping before `\r`/`\n`, newline; path trimmed and unquoted. -/
def parse_bin_line (s : Str) : PR (Str × Str) :=
  (tagP "    ".toList s).bind fun s _ =>
  (takeWhile1P depNameChar s).bind fun s n =>
  (charP ':' s).bind fun s _ =>
  (space1P s).bind fun s _ =>
  (isNotP ['\r', '\n'] s).bind fun s p =>
  (charP '\n' s).bind fun s _ =>
  .ok s (n, trimMatches '"' (rustTrim p))

/-- `parse.rs` `parse_bool_property`: `name ':' space1 ('true'|'false') space0`. -/
def parse_bool_property (prop : Str) (s : Str) : PR Bool :=
  (tagP prop s).bind fun s _ =>
  (charP ':' s).bind fun s _ =>
  (space1P s).bind fun s _ =>
  (match tagP "true".toList s with
   | .ok r _ => PR.ok r true
   | _ =>
     match tagP "false".toList s with
     | .ok r _ => PR.ok r false
     | _ => PR.err).bind fun s b =>
  (space0P s).bind fun s _ =>
  .ok s b

/-- Optional comma separator inside a meta object: `space0 ',' space0`. -/
def metaComma (s : Str) : PR Unit :=
  (space0P s).bind fun s _ =>
  (charP ',' s).bind fun s _ =>
  (space0P s).bind fun s _ =>
  .ok s ()

/-- `parse.rs` `parse_meta_object`: inline `\x7b ... \x7d` object with the
optional boolean fields `built`, `optional`, `unplugged` in this order. -/
def parse_meta_object (s : Str) : PR DependencyMeta :=
  (charP '\x7b' s).bind fun s _ =>
  (space0P s).bind fun s _ =>
  (optP (parse_bool_property "built".toList) s).bind fun s built =>
  (optP metaComma s).bind fun s _ =>
  (optP (parse_bool_property "optional".toList) s).bind fun s opt =>
  (optP metaComma s).bind fun s _ =>
  (optP (parse_bool_property "unplugged".toList) s).bind fun s unpl =>
  (space0P s).bind fun s _ =>
  (charP '\x7d' s).bind fun s _ =>
  .ok s ⟨built, opt, unpl⟩

/-- `parse.rs` `parse_peer_meta_object`: inline object with a mandatory
`optional` field. -/
def parse_peer_meta_object (s : Str) : PR PeerDependencyMeta :=
  (charP '\x7b' s).bind fun s _ =>
  (space0P s).bind fun s _ =>
  (parse_bool_property "optional".toList s).bind fun s opt =>
  (charP '\x7d' s).bind fun s _ =>
  .ok s ⟨opt⟩

/-- `parse.rs` `parse_dependency_meta_line`: four-space indent, name, colon,
spaces, inline meta object, newline. -/
def parse_dependency_meta_line (s : Str) : PR (Str × DependencyMeta) :=
  (tagP "    ".toList s).bind fun s _ =>
  (takeWhile1P depNameChar s).bind fun s n =>
  (charP ':' s).bind fun s _ =>
  (space1P s).bind fun s _ =>
  (parse_meta_object s).bind fun s m =>
  (charP '\n' s).bind fun s _ =>
  .ok s (n, m)

/-- `parse.rs` `parse_peer_dependency_meta_line`: like
`parse_dependency_meta_line` with a peer meta object. -/
def parse_peer_dependency_meta_line (s : Str) : PR (Str × PeerDependencyMeta) :=
  (tagP "    ".toList s).bind fun s _ =>
  (takeWhile1P depNameChar s).bind fun s n =>
  (charP ':' s).bind fun s _ =>
  (space1P s).bind fun s _ =>
  (parse_peer_meta_object s).bind fun s m =>
  (charP '\n' s).bind fun s _ =>
  .ok s (n, m)

/-- `parse.rs` `parse_dependencies_block`. -/
def parse_dependencies_block (s : Str) : PR (List (Str × Str)) :=
  (tagP "  dependencies:".toList s).bind fun s _ =>
  (charP '\n' s).bind fun s _ =>
  many0P parse_dependency_line s

/-- `parse.rs` `parse_peer_dependencies_block`. -/
def parse_peer_dependencies_block (s : Str) : PR (List (Str × Str)) :=
  (tagP "  peerDependencies:".toList s).bind fun s _ =>
  (charP '\n' s).bind fun s _ =>
  many0P parse_dependency_line s

/-- `parse.rs` `parse_bin_block`. -/
def parse_bin_block (s : Str) : PR (List (Str × Str)) :=
  (tagP "  bin:".toList s).bind fun s _ =>
  (charP '\n' s).bind fun s _ =>
  many0P parse_bin_line s

/-- `parse.rs` `parse_dependencies_meta_block`. -/
def parse_dependencies_meta_block (s : Str) : PR (List (Str × DependencyMeta)) :=
  (tagP "  dependenciesMeta:".toList s).bind fun s _ =>
  (charP '\n' s).bind fun s _ =>
  many0P parse_dependency_meta_line s

/-- `parse.rs` `parse_peer_dependencies_meta_block`. -/
def parse_peer_dependencies_meta_block (s : Str) :
    PR (List (Str × PeerDependencyMeta)) :=
  (tagP "  peerDependenciesMeta:".toList s).bind fun s _ =>
  (charP '\n' s).bind fun s _ =>
  many0P parse_peer_dependency_meta_line s

/-- `parse.rs` `PropertyValue`. -/
inductive PropertyValue where
  | simple (key value : Str)
  | dependencies (l : List (Str × Str))
  | peerDependencies (l : List (Str × Str))
  | bin (l : List (Str × Str))
  | dependenciesMeta (l : List (Str × DependencyMeta))
  | peerDependenciesMeta (l : List (Str × PeerDependencyMeta))
  deriving DecidableEq, Repr

/-- `parse.rs` `parse_property_line`: the six alternatives in source order,
returning the first success. -/
def parse_property_line (s : Str) : PR PropertyValue :=
  orElseP (mapP (parse_simple_property s) (fun kv => .simple kv.1 kv.2))
    fun _ =>
  orElseP (mapP (parse_dependencies_block s) .dependencies) fun _ =>
  orElseP (mapP (parse_peer_dependencies_block s) .peerDependencies) fun _ =>
  orElseP (mapP (parse_bin_block s) .bin) fun _ =>
  orElseP (mapP (parse_dependencies_meta_block s) .dependenciesMeta) fun _ =>
  orElseP (mapP (parse_peer_dependencies_meta_block s) .peerDependenciesMeta)
    fun _ =>
  .err

/-- One step of the property dispatch in `parse_package_properties`; `none`
is the `panic!("Invalid link type: ...")` on a `linkType` value that
`LinkType::try_from` rejects. -/
def applyProperty (pkg : Package) : PropertyValue → Option Package
  | .simple key value =>
    if key = "version".toList then
      some { pkg with version := some (trimMatches '"' value) }
    else if key = "resolution".toList then
      some { pkg with resolution := some (trimMatches '"' value) }
    else if key = "languageName".toList then
      some { pkg with language_name := value }
    else if key = "linkType".toList then
      match LinkType.tryFrom value with
      | some lt => some { pkg with link_type := lt }
      | none => none
    else if key = "checksum".toList then
      some { pkg with checksum := some value }
    else if key = "conditions".toList then
      some { pkg with conditions := some value }
    else some pkg
  | .dependencies l =>
    some (l.foldl (fun p nr =>
      let i := parse_dependency_name_to_ident nr.1
      { p with dependencies := insertMap p.dependencies i (Descriptor.new i nr.2) }) pkg)
  | .peerDependencies l =>
    some (l.foldl (fun p nr =>
      let i := parse_dependency_name_to_ident nr.1
      { p with peer_dependencies :=
          insertMap p.peer_dependencies i (Descriptor.new i nr.2) }) pkg)
  | .bin l =>
    some (l.foldl (fun p nv =>
      { p with bin := insertMap p.bin nv.1 nv.2 }) pkg)
  | .dependenciesMeta l =>
    some (l.foldl (fun p nm =>
      let i := parse_dependency_name_to_ident nm.1
      { p with dependencies_meta := insertMap p.dependencies_meta i (some nm.2) }) pkg)
  | .peerDependenciesMeta l =>
    some (l.foldl (fun p nm =>
      let i := parse_dependency_name_to_ident nm.1
      { p with peer_dependencies_meta :=
          insertMap p.peer_dependencies_meta i nm.2 }) pkg)

/-- Fold `applyProperty` over the parsed property list. -/
def applyProperties : Package → List PropertyValue → Option Package
  | pkg, [] => some pkg
  | pkg, pv :: t =>
    match applyProperty pkg pv with
    | some pkg' => applyProperties pkg' t
    | none => none

/-- `parse.rs` `parse_package_properties`: property lines, an optional blank
line, then the package built from the properties; the `linkType` panic is
propagated as a panic outcome. -/
def parse_package_properties (s : Str) : PR Package :=
  (many0P parse_property_line s).bind fun s props =>
  (optP (charP '\n') s).bind fun s _ =>
  match applyProperties (Package.new "unknown".toList .hard) props with
  | some pkg => .ok s pkg
  | none => .panic

/-- `parse.rs` `parse_package_entry`: key line, newline, property body. -/
def parse_package_entry (s : Str) : PR (List Descriptor × Package) :=
  (parse_descriptor_line s).bind fun s ds =>
  (charP '\n' s).bind fun s _ =>
  (parse_package_properties s).bind fun s pkg =>
  .ok s (ds, pkg)

/-- `parse.rs` `parse_package_only`: drop the descriptors of an entry. -/
def parse_package_only (s : Str) : PR Package :=
  match parse_package_entry s with
  | .ok r (_, pkg) => .ok r pkg
  | .err => .err
  | .panic => .panic

/-- `parse.rs` `parse_lockfile`: banner, metadata, optional blank line, then
all package entries. -/
def parse_lockfile (s : Str) : PR Lockfile :=
  (parse_yarn_header s).bind fun s _ =>
  (parse_metadata s).bind fun s md =>
  (optP (charP '\n') s).bind fun s _ =>
  (many0P parse_package_only s).bind fun s pkgs =>
  .ok s ⟨md, pkgs⟩

/-- Number of lines of `s` whose first character satisfies the quote test,
threading an "at start of a line" flag (initially `f`). -/
def cntQ : Str → Bool → Nat
  | [], _ => 0
  | c :: r, atStart =>
    (if atStart && (c == '"') then 1 else 0) + cntQ r (c == '\n')

/-- Number of top-level quoted-key lines: lines beginning with `"` at
column 0. -/
def countQuotedLines (s : Str) : Nat := cntQ s true

/-- Whether the position after consuming `s` is at the start of a line,
given that the position before `s` has that status `f`. -/
def nlAfter : Str → Bool → Bool
  | [], f => f
  | c :: r, _ => nlAfter r (c == '\n')

/-- A suffix beginning with a `"` has a well-formed single-line key: no line
terminator occurs strictly before the closing `":` scanned by
`parse_descriptor_line`.  Suffixes not beginning with `"` pass trivially. -/
def keyLineOk : Str → Bool
  | [] => true
  | c :: b =>
    if c = '"' then
      match findSub ['"', ':'] b with
      | some i => !((b.take i).contains '\n')
      | none => true
    else true

/-- Whitespace characters allowed in the remainder of an accepted parse. -/
def isWsChar (c : Char) : Bool :=
  c == ' ' || c == '\t' || c == '\r' || c == '\n'

/-- A consumed piece contributing no quote-initial line and ending at a line
start (banner, metadata, property bodies, blank lines). -/
def GoodChunk (c : Str) : Prop :=
  cntQ c true = 0 ∧ nlAfter c true = true

/-- A consumed package-entry piece: exactly one quote-initial line, ending at
a line start. -/
def KeyChunk (c : Str) : Prop :=
  cntQ c true = 1 ∧ nlAfter c true = true

/-- A single consumed line: some content without `\n` or a leading quote,
terminated by `\n`. -/
def SLChunk (c : Str) : Prop :=
  ∃ d, c = d ++ ['\n'] ∧ '\n' ∉ d ∧ d.head? ≠ some '"'

/-- `b` is a suffix of `s` beginning at the start of a line. -/
def LineStartSuffixOf (b s : Str) : Prop :=
  ∃ a, s = a ++ b ∧ nlAfter a true = true

/-! ### Supporting lemmas -/

theorem PR.bind_ok {α β : Type} {x : PR α} {f : Str → α → PR β} {r : Str}
    {v : β} (h : PR.bind x f = .ok r v) :
    ∃ r' v', x = .ok r' v' ∧ f r' v' = .ok r v := by
  cases x with
  | ok r' v' => exact ⟨r', v', rfl, h⟩
  | err => simp [PR.bind] at h
  | panic => simp [PR.bind] at h

theorem charP_cons (c : Char) (r : Str) : charP c (c :: r) = .ok r () := by
  simp [charP]

theorem charP_ok {c : Char} {s r : Str} {u : Unit}
    (h : charP c s = .ok r u) : s = c :: r := by
  cases s with
  | nil => simp [charP] at h
  | cons d t =>
    by_cases hd : d = c
    · subst hd
      simp [charP] at h
      simp [h]
    · simp [charP, hd] at h

theorem tagP_self (t r : Str) : tagP t (t ++ r) = .ok r () := by
  induction t with
  | nil => rfl
  | cons c t ih => simpa [tagP] using ih

theorem tagP_ok {t s r : Str} {u : Unit} (h : tagP t s = .ok r u) :
    s = t ++ r := by
  induction t generalizing s with
  | nil => cases s <;> simp_all [tagP]
  | cons c t ih =>
    cases s with
    | nil => simp [tagP] at h
    | cons d s' =>
      by_cases hd : d = c
      · subst hd
        simp only [tagP, if_pos rfl] at h
        simpa using ih h
      · simp [tagP, hd] at h

theorem takeWhile_append_split {p : Char → Bool} {a : Str} (c : Char)
    (r : Str) (ha : ∀ x ∈ a, p x = true) (hc : p c = false) :
    (a ++ c :: r).takeWhile p = a ∧ (a ++ c :: r).dropWhile p = c :: r := by
  induction a with
  | nil => simp [List.takeWhile, List.dropWhile, hc]
  | cons x a ih =>
    have hx : p x = true := ha x (by simp)
    obtain ⟨h1, h2⟩ := ih (fun y hy => ha y (by simp [hy]))
    simp [List.takeWhile, List.dropWhile, hx, h1, h2]

theorem takeWhileP_split {p : Char → Bool} {a : Str} (c : Char) (r : Str)
    (ha : ∀ x ∈ a, p x = true) (hc : p c = false) :
    takeWhileP p (a ++ c :: r) = .ok (c :: r) a := by
  obtain ⟨h1, h2⟩ := takeWhile_append_split (p := p) (a := a) c r ha hc
  simp [takeWhileP, h1, h2]

theorem takeWhile1P_split {p : Char → Bool} {a : Str} (c : Char) (r : Str)
    (ha : ∀ x ∈ a, p x = true) (hc : p c = false) (hne : a ≠ []) :
    takeWhile1P p (a ++ c :: r) = .ok (c :: r) a := by
  obtain ⟨h1, h2⟩ := takeWhile_append_split (p := p) (a := a) c r ha hc
  cases a with
  | nil => exact absurd rfl hne
  | cons x a =>
    simp only [List.cons_append] at h1 h2
    simp [takeWhile1P, h1, h2]

theorem firstIdx_eq_none {p : Char → Bool} {s : Str}
    (h : ∀ c ∈ s, p c = false) : firstIdx p s = none := by
  induction s with
  | nil => rfl
  | cons c r ih =>
    have hc : p c = false := h c (by simp)
    have hr : ∀ x ∈ r, p x = false := fun x hx => h x (by simp [hx])
    simp [firstIdx, hc, ih hr]

theorem firstIdx_none_mem {p : Char → Bool} {s : Str}
    (h : firstIdx p s = none) : ∀ c ∈ s, p c = false := by
  induction s with
  | nil => simp
  | cons c r ih =>
    by_cases hc : p c = true
    · simp [firstIdx, hc] at h
    · simp only [Bool.not_eq_true] at hc
      simp only [firstIdx, hc, Bool.false_eq_true, if_false] at h
      cases hfr : firstIdx p r with
      | some j => rw [hfr] at h; simp at h
      | none =>
        intro x hx
        rcases List.mem_cons.1 hx with h1 | h1
        · subst h1; exact hc
        · exact ih hfr x h1

theorem firstIdx_spec {p : Char → Bool} {s : Str} {i : Nat}
    (h : firstIdx p s = some i) :
    ∃ c, p c = true ∧ s = s.take i ++ c :: s.drop (i + 1) := by
  induction s generalizing i with
  | nil => simp [firstIdx] at h
  | cons c r ih =>
    by_cases hc : p c = true
    · simp only [firstIdx, hc, if_true, Option.some.injEq] at h
      subst h
      exact ⟨c, hc, by simp⟩
    · simp only [Bool.not_eq_true] at hc
      simp only [firstIdx, hc, Bool.false_eq_true, if_false] at h
      rcases Option.map_eq_some'.1 h with ⟨j, hj, hij⟩
      subst hij
      rcases ih hj with ⟨d, hd, hsplit⟩
      exact ⟨d, hd, by simpa [List.take, List.drop] using congrArg (c :: ·) hsplit⟩

theorem many0P_of_err {α : Type} {p : Str → PR α} {s : Str}
    (h : p s = .err) : many0P p s = .ok s [] := by
  simp [many0P, manyF, h]

theorem optP_of_err {α : Type} {p : Str → PR α} {s : Str}
    (h : p s = .err) : optP p s = .ok s none := by
  simp [optP, h]

theorem keyChar_not_space (c : Char) (h : (c.isAlpha || c == '_') = true) :
    (c == ' ' || c == '\t') = false := by
  have hs : c ≠ ' ' := by rintro rfl; exact absurd h (by decide)
  have ht : c ≠ '\t' := by rintro rfl; exact absurd h (by decide)
  simp [hs, ht]

theorem not_crlf_pred {c : Char} (h1 : c ≠ '\r') (h2 : c ≠ '\n') :
    (!((['\r', '\n'] : Str).contains c)) = true := by
  simp [List.contains, h1, h2]

theorem parse_metadata_line_build (k v rest : Str) (hkne : k ≠ [])
    (hk : ∀ c ∈ k, (c.isAlpha || c == '_') = true)
    (hvne : v ≠ []) (hvc : ∀ c ∈ v, c ≠ '\r' ∧ c ≠ '\n')
    (hvh : v.head?.any (fun c => c == ' ' || c == '\t') = false) :
    parse_metadata_line
        (' ' :: ' ' :: (k ++ ':' :: ' ' :: (v ++ '\n' :: rest))) =
      .ok rest (k, v) := by
  obtain ⟨kc, kt, rfl⟩ : ∃ kc kt, k = kc :: kt := by
    cases k with
    | nil => exact absurd rfl hkne
    | cons kc kt => exact ⟨kc, kt, rfl⟩
  obtain ⟨vc, vt, rfl⟩ : ∃ vc vt, v = vc :: vt := by
    cases v with
    | nil => exact absurd rfl hvne
    | cons vc vt => exact ⟨vc, vt, rfl⟩
  have hkc : (kc == ' ' || kc == '\t') = false :=
    keyChar_not_space kc (hk kc (by simp))
  have hvc0 : (vc == ' ' || vc == '\t') = false := by simpa using hvh
  unfold parse_metadata_line
  have h1 : space1P
      (' ' :: ' ' :: (kc :: kt ++ ':' :: ' ' :: (vc :: vt ++ '\n' :: rest))) =
      .ok (kc :: kt ++ ':' :: ' ' :: (vc :: vt ++ '\n' :: rest)) [' ', ' '] := by
    simp [space1P, takeWhile1P, List.takeWhile, List.dropWhile, hkc]
  rw [h1]
  simp only [PR.bind]
  have h2 := takeWhileP_split (p := fun c => c.isAlpha || c == '_')
    (a := kc :: kt) ':' (' ' :: (vc :: vt ++ '\n' :: rest)) hk (by decide)
  simp only [List.cons_append] at h2 ⊢
  rw [h2]
  simp only [PR.bind]
  rw [charP_cons]
  simp only [PR.bind]
  have h3 : space1P (' ' :: (vc :: vt ++ '\n' :: rest)) =
      .ok (vc :: vt ++ '\n' :: rest) [' '] := by
    simp [space1P, takeWhile1P, List.takeWhile, List.dropWhile, hvc0]
  simp only [List.cons_append] at h3
  rw [h3]
  simp only [PR.bind]
  have h4 := takeWhile1P_split (p := fun c => !((['\r', '\n'] : Str).contains c))
    (a := vc :: vt) '\n' rest
    (fun c hc => not_crlf_pred (hvc c hc).1 (hvc c hc).2) (by decide)
    (by simp)
  simp only [List.cons_append] at h4
  rw [show isNotP ['\r', '\n'] (vc :: (vt ++ '\n' :: rest)) =
    .ok ('\n' :: rest) (vc :: vt) from h4]
  simp only [PR.bind]
  rw [charP_cons]

/-! ### Line-counting lemmas -/

theorem cntQ_append (a b : Str) (f : Bool) :
    cntQ (a ++ b) f = cntQ a f + cntQ b (nlAfter a f) := by
  induction a generalizing f with
  | nil => simp [cntQ, nlAfter]
  | cons c t ih => simp [cntQ, nlAfter, ih, Nat.add_assoc]

theorem nlAfter_append (a b : Str) (f : Bool) :
    nlAfter (a ++ b) f = nlAfter b (nlAfter a f) := by
  induction a generalizing f with
  | nil => simp [nlAfter]
  | cons c t ih => simp [nlAfter, ih]

theorem cntQ_of_no_quote {s : Str} (h : '"' ∉ s) (f : Bool) :
    cntQ s f = 0 := by
  induction s generalizing f with
  | nil => rfl
  | cons c t ih =>
    have hc : c ≠ '"' := fun he => h (by simp [he])
    have ht : '"' ∉ t := fun hm => h (by simp [hm])
    simp [cntQ, hc, ih ht]

theorem cntQ_false_of_no_nl {s : Str} (h : '\n' ∉ s) :
    cntQ s false = 0 := by
  induction s with
  | nil => rfl
  | cons c t ih =>
    have hc : c ≠ '\n' := fun he => h (by simp [he])
    have ht : '\n' ∉ t := fun hm => h (by simp [hm])
    have hcb : (c == '\n') = false := beq_eq_false_iff_ne.mpr hc
    simp [cntQ, hcb, ih ht]

theorem SLChunk.good {c : Str} (h : SLChunk c) : GoodChunk c := by
  obtain ⟨d, rfl, hnl, hq⟩ := h
  constructor
  · rw [cntQ_append]
    have h1 : cntQ d true = 0 := by
      cases d with
      | nil => rfl
      | cons x t =>
        have hx : x ≠ '"' := fun he => hq (by simp [he])
        have hxn : (x == '\n') = false :=
          beq_eq_false_iff_ne.mpr (fun he => hnl (by simp [he]))
        have ht : '\n' ∉ t := fun hm => hnl (by simp [hm])
        simp [cntQ, hx, hxn, cntQ_false_of_no_nl ht]
    simp [h1, cntQ]
  · rw [nlAfter_append]
    simp [nlAfter]

theorem GoodChunk.nil : GoodChunk ([] : Str) := ⟨rfl, rfl⟩

theorem GoodChunk.append {a b : Str} (ha : GoodChunk a) (hb : GoodChunk b) :
    GoodChunk (a ++ b) := by
  refine ⟨?_, ?_⟩
  · rw [cntQ_append, ha.2, ha.1, hb.1]
  · rw [nlAfter_append, ha.2, hb.2]

theorem GoodChunk.flatten {L : List Str} (h : ∀ c ∈ L, GoodChunk c) :
    GoodChunk L.flatten := by
  induction L with
  | nil => exact GoodChunk.nil
  | cons c t ih =>
    exact GoodChunk.append (h c (by simp))
      (ih (fun x hx => h x (by simp [hx])))

theorem KeyChunk.flatten_count {L : List Str} (h : ∀ c ∈ L, KeyChunk c) :
    cntQ L.flatten true = L.length ∧ nlAfter L.flatten true = true := by
  induction L with
  | nil => exact ⟨rfl, rfl⟩
  | cons c t ih =>
    obtain ⟨h1, h2⟩ := ih (fun x hx => h x (by simp [hx]))
    obtain ⟨hc1, hc2⟩ := h c (by simp)
    constructor
    · rw [List.flatten_cons, cntQ_append, hc1, hc2, h1]
      simp [List.length_cons, Nat.add_comm]
    · rw [List.flatten_cons, nlAfter_append, hc2, h2]

/-! ### many0 unfolding and specification -/

theorem manyF_irrel {α : Type} (p : Str → PR α) :
    ∀ (n m : Nat) (s : Str), s.length < n → s.length < m →
      manyF p n s = manyF p m s := by
  intro n
  induction n with
  | zero => intro m s h; omega
  | succ n ih =>
    intro m s hn hm
    cases m with
    | zero => omega
    | succ m =>
      simp only [manyF]
      cases hps : p s with
      | err => rfl
      | panic => rfl
      | ok r v =>
        by_cases hlen : s.length ≤ r.length
        · simp [hlen]
        · have hrn : r.length < n := by omega
          have hrm : r.length < m := by omega
          simp [hlen, ih m r hrn hrm]

theorem many0P_eq {α : Type} (p : Str → PR α) (s : Str) :
    many0P p s =
      (match p s with
       | .err => .ok s []
       | .panic => .panic
       | .ok r v =>
         if s.length ≤ r.length then .err
         else
           match many0P p r with
           | .ok r' vs => .ok r' (v :: vs)
           | .err => .err
           | .panic => .panic) := by
  conv_lhs => rw [many0P, manyF]
  cases hps : p s with
  | err => rfl
  | panic => rfl
  | ok r v =>
    by_cases hlen : s.length ≤ r.length
    · simp [hlen]
    · have : manyF p s.length r = many0P p r :=
        manyF_irrel p s.length (r.length + 1) r (by omega) (by omega)
      simp [hlen, this]

theorem many0P_inv_spec {α : Type} (p : Str → PR α) (Inv : Str → Prop)
    (Q : Str → Prop)
    (hp : ∀ s r v, Inv s → p s = .ok r v →
      ∃ c, s = c ++ r ∧ c ≠ [] ∧ Q c ∧ Inv r) :
    ∀ (s r : Str) (vs : List α), Inv s → many0P p s = .ok r vs →
      ∃ chunks : List Str, s = chunks.flatten ++ r ∧
        chunks.length = vs.length ∧ (∀ c ∈ chunks, Q c) ∧
        ∀ i v, vs[i]? = some v →
          p ((chunks.drop i).flatten ++ r) =
            .ok ((chunks.drop (i + 1)).flatten ++ r) v := by
  have main : ∀ (n : Nat) (s : Str), s.length ≤ n →
      ∀ (r : Str) (vs : List α), Inv s → many0P p s = .ok r vs →
      ∃ chunks : List Str, s = chunks.flatten ++ r ∧
        chunks.length = vs.length ∧ (∀ c ∈ chunks, Q c) ∧
        ∀ i v, vs[i]? = some v →
          p ((chunks.drop i).flatten ++ r) =
            .ok ((chunks.drop (i + 1)).flatten ++ r) v := by
    intro n
    induction n with
    | zero =>
      intro s hs r vs hInv h
      have hsnil : s = [] := List.length_eq_zero.mp (Nat.le_zero.mp hs)
      subst hsnil
      rw [many0P_eq] at h
      cases hps : p [] with
      | err =>
        rw [hps] at h
        simp only [PR.ok.injEq] at h
        obtain ⟨rfl, rfl⟩ := h
        exact ⟨[], by simp, by simp, by simp, by simp⟩
      | panic => rw [hps] at h; simp at h
      | ok r1 v =>
        rw [hps] at h
        dsimp only at h
        simp at h
    | succ n ih =>
      intro s hs r vs hInv h
      rw [many0P_eq] at h
      cases hps : p s with
      | err =>
        rw [hps] at h
        simp only [PR.ok.injEq] at h
        obtain ⟨rfl, rfl⟩ := h
        exact ⟨[], by simp, by simp, by simp, by simp⟩
      | panic => rw [hps] at h; simp at h
      | ok r1 v =>
        rw [hps] at h
        dsimp only at h
        obtain ⟨c, hc, hcne, hQ, hInvr⟩ := hp s r1 v hInv hps
        have hclen : 0 < c.length := List.length_pos.mpr hcne
        have hr1len : r1.length < s.length := by
          rw [hc, List.length_append]; omega
        rw [if_neg (by omega)] at h
        cases hmr : many0P p r1 with
        | err => rw [hmr] at h; simp at h
        | panic => rw [hmr] at h; simp at h
        | ok r' vs' =>
          rw [hmr] at h
          dsimp only at h
          simp only [PR.ok.injEq] at h
          obtain ⟨rfl, rfl⟩ := h
          obtain ⟨chunks', h1, h2, h3, h4⟩ :=
            ih r1 (by omega) r' vs' hInvr hmr
          refine ⟨c :: chunks', ?_, ?_, ?_, ?_⟩
          · rw [hc, h1]; simp [List.append_assoc]
          · simp [h2]
          · intro x hx
            rcases List.mem_cons.mp hx with h5 | h5
            · exact h5 ▸ hQ
            · exact h3 x h5
          · intro i v' hi
            cases i with
            | zero =>
              simp only [List.getElem?_cons_zero, Option.some.injEq] at hi
              subst hi
              have : (c :: chunks').flatten ++ r' = s := by
                rw [hc, h1]; simp [List.append_assoc]
              simp only [List.drop_zero, List.drop_one, List.tail_cons]
              rw [this, hps, h1]
              simp
            | succ j =>
              simp only [List.getElem?_cons_succ] at hi
              have := h4 j v' hi
              simpa using this
  intro s r vs hInv h
  exact main s.length s (Nat.le_refl _) r vs hInv h

/-! ### Consumption-shape lemmas for the embedded parsers -/

theorem mem_takeWhile {p : Char → Bool} :
    ∀ {s : Str} {x : Char}, x ∈ s.takeWhile p → p x = true := by
  intro s
  induction s with
  | nil => intro x hx; simp [List.takeWhile] at hx
  | cons c t ih =>
    intro x hx
    by_cases hc : p c = true
    · rw [List.takeWhile_cons, if_pos hc] at hx
      rcases List.mem_cons.mp hx with h | h
      · exact h ▸ hc
      · exact ih h
    · rw [List.takeWhile_cons, if_neg hc] at hx
      simp at hx

theorem takeWhileP_ok {p : Char → Bool} {s r v : Str}
    (h : takeWhileP p s = .ok r v) :
    s = v ++ r ∧ ∀ x ∈ v, p x = true := by
  simp only [takeWhileP, PR.ok.injEq] at h
  obtain ⟨rfl, rfl⟩ := h
  exact ⟨(List.takeWhile_append_dropWhile p s).symm,
    fun x hx => mem_takeWhile hx⟩

theorem takeWhile1P_ok {p : Char → Bool} {s r v : Str}
    (h : takeWhile1P p s = .ok r v) :
    s = v ++ r ∧ v ≠ [] ∧ ∀ x ∈ v, p x = true := by
  unfold takeWhile1P at h
  cases htw : s.takeWhile p with
  | nil => rw [htw] at h; cases h
  | cons c t =>
    rw [htw] at h
    simp only [PR.ok.injEq] at h
    obtain ⟨rfl, rfl⟩ := h
    refine ⟨?_, by simp, fun x hx => mem_takeWhile (htw ▸ hx)⟩
    rw [← htw, List.takeWhile_append_dropWhile]

theorem takeUntilP_ok {t s r v : Str} (h : takeUntilP t s = .ok r v) :
    s = v ++ r ∧ ∃ i, findSub t s = some i ∧ v = s.take i := by
  unfold takeUntilP at h
  cases hf : findSub t s with
  | none => rw [hf] at h; cases h
  | some i =>
    rw [hf] at h
    simp only [PR.ok.injEq] at h
    obtain ⟨rfl, rfl⟩ := h
    exact ⟨(List.take_append_drop i s).symm, i, rfl, rfl⟩

theorem optP_ok {α : Type} {p : Str → PR α} {s r : Str} {v : Option α}
    (h : optP p s = .ok r v) :
    (r = s ∧ v = none) ∨ ∃ a, v = some a ∧ p s = .ok r a := by
  unfold optP at h
  cases hps : p s with
  | ok r1 a =>
    rw [hps] at h
    simp only [PR.ok.injEq] at h
    exact Or.inr ⟨a, h.2.symm, h.1 ▸ rfl⟩
  | err =>
    rw [hps] at h
    simp only [PR.ok.injEq] at h
    exact Or.inl ⟨h.1.symm, h.2.symm⟩
  | panic => rw [hps] at h; cases h

theorem findSub_singleton_take {ch : Char} :
    ∀ {s : Str} {i : Nat}, findSub [ch] s = some i → ch ∉ s.take i := by
  intro s
  induction s with
  | nil =>
    intro i h
    simp [findSub] at h
  | cons c r ih =>
    intro i h
    by_cases hc : ch = c
    · subst hc
      simp [findSub, isPre] at h
      subst h
      simp
    · have hpre : isPre [ch] (c :: r) = false := by
        simp [isPre, beq_eq_false_iff_ne, hc]
      simp only [findSub, hpre, Bool.false_eq_true, if_false] at h
      rcases Option.map_eq_some'.mp h with ⟨j, hj, hij⟩
      subst hij
      intro hm
      rw [List.take_succ_cons] at hm
      rcases List.mem_cons.mp hm with h1 | h1
      · exact hc h1
      · exact ih hj h1

theorem sl_shape {s r d : Str} (heq : s = d ++ '\n' :: r) (hnl : '\n' ∉ d)
    (hq : d.head? ≠ some '"') :
    ∃ c, s = c ++ r ∧ c ≠ [] ∧ GoodChunk c :=
  ⟨d ++ ['\n'], by simpa [List.append_assoc] using heq, by simp,
    SLChunk.good ⟨d, rfl, hnl, hq⟩⟩

theorem parse_simple_property_shape {s r : Str} {kv : Str × Str}
    (h : parse_simple_property s = .ok r kv) :
    ∃ c, s = c ++ r ∧ c ≠ [] ∧ GoodChunk c := by
  unfold parse_simple_property at h
  obtain ⟨r1, u1, h1, h⟩ := PR.bind_ok h
  obtain ⟨r2, key, h2, h⟩ := PR.bind_ok h
  obtain ⟨r3, u3, h3, h⟩ := PR.bind_ok h
  obtain ⟨r4, sp, h4, h⟩ := PR.bind_ok h
  obtain ⟨r5, v, h5, h⟩ := PR.bind_ok h
  obtain ⟨r6, u6, h6, h⟩ := PR.bind_ok h
  simp only [PR.ok.injEq] at h
  obtain ⟨rfl, -⟩ := h
  have e1 := tagP_ok h1
  obtain ⟨e2, -, hkey⟩ := takeWhile1P_ok h2
  have e3 := charP_ok h3
  obtain ⟨e4, -, hsp⟩ := takeWhile1P_ok h4
  obtain ⟨e5, -, hv⟩ := takeWhile1P_ok h5
  have e6 := charP_ok h6
  refine sl_shape (d := ' ' :: ' ' :: (key ++ ':' :: (sp ++ v))) ?_ ?_ (by simp)
  · rw [e1, e2, e3, e4, e5, e6]; simp [List.append_assoc]
  · intro hm
    simp only [List.mem_cons, List.mem_append] at hm
    rcases hm with h' | h' | h' | h' | h' | h'
    · exact absurd h' (by decide)
    · exact absurd h' (by decide)
    · exact absurd (hkey _ h') (by decide)
    · exact absurd h' (by decide)
    · exact absurd (hsp _ h') (by decide)
    · exact absurd (hv _ h') (by decide)

theorem parse_metadata_line_shape {s r : Str} {kv : Str × Str}
    (h : parse_metadata_line s = .ok r kv) :
    ∃ c, s = c ++ r ∧ c ≠ [] ∧ GoodChunk c := by
  unfold parse_metadata_line at h
  obtain ⟨r1, sp1, h1, h⟩ := PR.bind_ok h
  obtain ⟨r2, key, h2, h⟩ := PR.bind_ok h
  obtain ⟨r3, u3, h3, h⟩ := PR.bind_ok h
  obtain ⟨r4, sp2, h4, h⟩ := PR.bind_ok h
  obtain ⟨r5, v, h5, h⟩ := PR.bind_ok h
  obtain ⟨r6, u6, h6, h⟩ := PR.bind_ok h
  simp only [PR.ok.injEq] at h
  obtain ⟨rfl, -⟩ := h
  obtain ⟨e1, hsp1ne, hsp1⟩ := takeWhile1P_ok h1
  obtain ⟨e2, hkey⟩ := takeWhileP_ok h2
  have e3 := charP_ok h3
  obtain ⟨e4, -, hsp2⟩ := takeWhile1P_ok h4
  obtain ⟨e5, -, hv⟩ := takeWhile1P_ok h5
  have e6 := charP_ok h6
  obtain ⟨c0, t0, rfl⟩ : ∃ c0 t0, sp1 = c0 :: t0 := by
    cases sp1 with
    | nil => exact absurd rfl hsp1ne
    | cons c0 t0 => exact ⟨c0, t0, rfl⟩
  refine sl_shape (d := (c0 :: t0) ++ (key ++ ':' :: (sp2 ++ v))) ?_ ?_ ?_
  · rw [e1, e2, e3, e4, e5, e6]; simp [List.append_assoc]
  · intro hm
    simp only [List.mem_cons, List.mem_append] at hm
    rcases hm with (h' | h') | h' | h' | h' | h'
    · subst h'
      exact absurd (hsp1 '\n' (by simp)) (by decide)
    · exact absurd (hsp1 '\n' (List.mem_cons_of_mem _ h')) (by decide)
    · exact absurd (hkey _ h') (by decide)
    · exact absurd h' (by decide)
    · exact absurd (hsp2 _ h') (by decide)
    · exact absurd (hv _ h') (by decide)
  · intro heq
    simp only [List.cons_append, List.head?_cons, Option.some.injEq] at heq
    subst heq
    exact absurd (hsp1 '"' (by simp)) (by decide)

theorem parse_bin_line_shape {s r : Str} {kv : Str × Str}
    (h : parse_bin_line s = .ok r kv) :
    ∃ c, s = c ++ r ∧ c ≠ [] ∧ GoodChunk c := by
  unfold parse_bin_line at h
  obtain ⟨r1, u1, h1, h⟩ := PR.bind_ok h
  obtain ⟨r2, nm, h2, h⟩ := PR.bind_ok h
  obtain ⟨r3, u3, h3, h⟩ := PR.bind_ok h
  obtain ⟨r4, sp, h4, h⟩ := PR.bind_ok h
  obtain ⟨r5, v, h5, h⟩ := PR.bind_ok h
  obtain ⟨r6, u6, h6, h⟩ := PR.bind_ok h
  simp only [PR.ok.injEq] at h
  obtain ⟨rfl, -⟩ := h
  have e1 := tagP_ok h1
  obtain ⟨e2, -, hnm⟩ := takeWhile1P_ok h2
  have e3 := charP_ok h3
  obtain ⟨e4, -, hsp⟩ := takeWhile1P_ok h4
  obtain ⟨e5, -, hv⟩ := takeWhile1P_ok h5
  have e6 := charP_ok h6
  refine sl_shape
    (d := ' ' :: ' ' :: ' ' :: ' ' :: (nm ++ ':' :: (sp ++ v))) ?_ ?_ (by simp)
  · rw [e1, e2, e3, e4, e5, e6]; simp [List.append_assoc]
  · intro hm
    simp only [List.mem_cons, List.mem_append] at hm
    rcases hm with h' | h' | h' | h' | h' | h' | h' | h'
    · exact absurd h' (by decide)
    · exact absurd h' (by decide)
    · exact absurd h' (by decide)
    · exact absurd h' (by decide)
    · exact absurd (hnm _ h') (by decide)
    · exact absurd h' (by decide)
    · exact absurd (hsp _ h') (by decide)
    · exact absurd (hv _ h') (by decide)

theorem parse_dependency_line_shape {s r : Str} {kv : Str × Str}
    (h : parse_dependency_line s = .ok r kv) :
    ∃ c, s = c ++ r ∧ c ≠ [] ∧ GoodChunk c := by
  unfold parse_dependency_line at h
  obtain ⟨r1, u1, h1, h⟩ := PR.bind_ok h
  obtain ⟨r2, nm, hname, h⟩ := PR.bind_ok h
  obtain ⟨r3, u3, h3, h⟩ := PR.bind_ok h
  obtain ⟨r4, sp, h4, h⟩ := PR.bind_ok h
  obtain ⟨r5, rg, h5, h⟩ := PR.bind_ok h
  obtain ⟨r6, u6, h6, h⟩ := PR.bind_ok h
  simp only [PR.ok.injEq] at h
  obtain ⟨rfl, -⟩ := h
  have e1 := tagP_ok h1
  have e3 := charP_ok h3
  obtain ⟨e4, -, hsp⟩ := takeWhile1P_ok h4
  obtain ⟨e5, i, hfind, hrg⟩ := takeUntilP_ok h5
  have e6 := charP_ok h6
  have hrgnl : '\n' ∉ rg := hrg ▸ findSub_singleton_take hfind
  -- the name position: either the quoted or the bare alternative succeeded
  have hnm : ∃ nc, r1 = nc ++ r2 ∧ '\n' ∉ nc := by
    rcases hq : ((charP '"' r1).bind fun s _ =>
        (takeWhile1P depNameChar s).bind fun s n =>
        (charP '"' s).bind fun s _ => PR.ok s n) with rq | - | -
    · case ok rq vq =>
      rw [hq] at hname
      simp only [PR.ok.injEq] at hname
      obtain ⟨rfl, rfl⟩ := hname
      obtain ⟨q1, w1, hq1, hqr⟩ := PR.bind_ok hq
      obtain ⟨q2, n2, hq2, hqr⟩ := PR.bind_ok hqr
      obtain ⟨q3, w3, hq3, hqr⟩ := PR.bind_ok hqr
      simp only [PR.ok.injEq] at hqr
      obtain ⟨rfl, rfl⟩ := hqr
      have f1 := charP_ok hq1
      obtain ⟨f2, -, hn2⟩ := takeWhile1P_ok hq2
      have f3 := charP_ok hq3
      refine ⟨'"' :: (n2 ++ ['"']), ?_, ?_⟩
      · rw [f1, f2, f3]; simp [List.append_assoc]
      · intro hm
        simp only [List.mem_cons, List.mem_append] at hm
        rcases hm with h' | h' | h'
        · exact absurd h' (by decide)
        · exact absurd (hn2 _ h') (by decide)
        · exact absurd h' (by decide)
    all_goals {
      rw [hq] at hname
      obtain ⟨f2, -, hn2⟩ := takeWhile1P_ok hname
      exact ⟨nm, f2, fun hm => absurd (hn2 _ hm) (by decide)⟩ }
  obtain ⟨nc, e2, hnc⟩ := hnm
  refine sl_shape
    (d := ' ' :: ' ' :: ' ' :: ' ' :: (nc ++ ':' :: (sp ++ rg))) ?_ ?_ (by simp)
  · rw [e1, e2, e3, e4, e5, e6]; simp [List.append_assoc]
  · intro hm
    simp only [List.mem_cons, List.mem_append] at hm
    rcases hm with h' | h' | h' | h' | h' | h' | h' | h'
    · exact absurd h' (by decide)
    · exact absurd h' (by decide)
    · exact absurd h' (by decide)
    · exact absurd h' (by decide)
    · exact hnc h'
    · exact absurd h' (by decide)
    · exact absurd (hsp _ h') (by decide)
    · exact hrgnl h'

theorem parse_bool_property_nonl {prop s r : Str} {b : Bool}
    (hp : '\n' ∉ prop) (h : parse_bool_property prop s = .ok r b) :
    ∃ c, s = c ++ r ∧ '\n' ∉ c := by
  unfold parse_bool_property at h
  obtain ⟨r1, u1, h1, h⟩ := PR.bind_ok h
  obtain ⟨r2, u2, h2, h⟩ := PR.bind_ok h
  obtain ⟨r3, sp1, h3, h⟩ := PR.bind_ok h
  obtain ⟨r4, b4, h4, h⟩ := PR.bind_ok h
  obtain ⟨r5, sp2, h5, h⟩ := PR.bind_ok h
  simp only [PR.ok.injEq] at h
  obtain ⟨rfl, -⟩ := h
  have e1 := tagP_ok h1
  have e2 := charP_ok h2
  obtain ⟨e3, -, hsp1⟩ := takeWhile1P_ok h3
  obtain ⟨e5, hsp2⟩ := takeWhileP_ok h5
  have e4 : ∃ w, r3 = w ++ r4 ∧ '\n' ∉ w := by
    rcases htt : tagP "true".toList r3 with rt | - | -
    · case ok rt vt =>
      rw [htt] at h4
      simp only [PR.ok.injEq] at h4
      obtain ⟨rfl, -⟩ := h4
      exact ⟨"true".toList, tagP_ok htt, by decide⟩
    all_goals {
      rw [htt] at h4
      rcases htf : tagP "false".toList r3 with rf | - | -
      · case ok rf vf =>
        rw [htf] at h4
        simp only [PR.ok.injEq] at h4
        obtain ⟨rfl, -⟩ := h4
        exact ⟨"false".toList, tagP_ok htf, by decide⟩
      all_goals { rw [htf] at h4; cases h4 } }
  obtain ⟨w, e4, hw⟩ := e4
  refine ⟨prop ++ ':' :: (sp1 ++ (w ++ sp2)), ?_, ?_⟩
  · rw [e1, e2, e3, e4, e5]; simp [List.append_assoc]
  · intro hm
    simp only [List.mem_cons, List.mem_append] at hm
    rcases hm with h' | h' | h' | h' | h'
    · exact hp h'
    · exact absurd h' (by decide)
    · exact absurd (hsp1 _ h') (by decide)
    · exact hw h'
    · exact absurd (hsp2 _ h') (by decide)

theorem metaComma_nonl {s r : Str} {u : Unit} (h : metaComma s = .ok r u) :
    ∃ c, s = c ++ r ∧ '\n' ∉ c := by
  unfold metaComma at h
  obtain ⟨r1, sp1, h1, h⟩ := PR.bind_ok h
  obtain ⟨r2, u2, h2, h⟩ := PR.bind_ok h
  obtain ⟨r3, sp2, h3, h⟩ := PR.bind_ok h
  simp only [PR.ok.injEq] at h
  obtain ⟨rfl, -⟩ := h
  obtain ⟨e1, hsp1⟩ := takeWhileP_ok h1
  have e2 := charP_ok h2
  obtain ⟨e3, hsp2⟩ := takeWhileP_ok h3
  refine ⟨sp1 ++ ',' :: sp2, ?_, ?_⟩
  · rw [e1, e2, e3]; simp [List.append_assoc]
  · intro hm
    simp only [List.mem_cons, List.mem_append] at hm
    rcases hm with h' | h' | h'
    · exact absurd (hsp1 _ h') (by decide)
    · exact absurd h' (by decide)
    · exact absurd (hsp2 _ h') (by decide)

theorem optP_nonl {α : Type} {p : Str → PR α} {s r : Str} {v : Option α}
    (h : optP p s = .ok r v)
    (hp : ∀ r' a, p s = .ok r' a → ∃ c, s = c ++ r' ∧ '\n' ∉ c) :
    ∃ c, s = c ++ r ∧ '\n' ∉ c := by
  rcases optP_ok h with ⟨rfl, -⟩ | ⟨a, -, hpa⟩
  · exact ⟨[], by simp, by simp⟩
  · exact hp _ _ hpa

theorem parse_meta_object_nonl {s r : Str} {m : DependencyMeta}
    (h : parse_meta_object s = .ok r m) :
    ∃ c, s = c ++ r ∧ '\n' ∉ c := by
  unfold parse_meta_object at h
  obtain ⟨r1, u1, h1, h⟩ := PR.bind_ok h
  obtain ⟨r2, sp1, h2, h⟩ := PR.bind_ok h
  obtain ⟨r3, ob, h3, h⟩ := PR.bind_ok h
  obtain ⟨r4, oc1, h4, h⟩ := PR.bind_ok h
  obtain ⟨r5, oo, h5, h⟩ := PR.bind_ok h
  obtain ⟨r6, oc2, h6, h⟩ := PR.bind_ok h
  obtain ⟨r7, ou, h7, h⟩ := PR.bind_ok h
  obtain ⟨r8, sp2, h8, h⟩ := PR.bind_ok h
  obtain ⟨r9, u9, h9, h⟩ := PR.bind_ok h
  simp only [PR.ok.injEq] at h
  obtain ⟨rfl, -⟩ := h
  have e1 := charP_ok h1
  obtain ⟨e2, hsp1⟩ := takeWhileP_ok h2
  obtain ⟨c3, e3, hc3⟩ := optP_nonl h3
    (fun r' a ha => parse_bool_property_nonl (by decide) ha)
  obtain ⟨c4, e4, hc4⟩ := optP_nonl h4 (fun r' a ha => metaComma_nonl ha)
  obtain ⟨c5, e5, hc5⟩ := optP_nonl h5
    (fun r' a ha => parse_bool_property_nonl (by decide) ha)
  obtain ⟨c6, e6, hc6⟩ := optP_nonl h6 (fun r' a ha => metaComma_nonl ha)
  obtain ⟨c7, e7, hc7⟩ := optP_nonl h7
    (fun r' a ha => parse_bool_property_nonl (by decide) ha)
  obtain ⟨e8, hsp2⟩ := takeWhileP_ok h8
  have e9 := charP_ok h9
  refine ⟨'\x7b' :: (sp1 ++ (c3 ++ (c4 ++ (c5 ++ (c6 ++ (c7 ++
    (sp2 ++ ['\x7d']))))))), ?_, ?_⟩
  · rw [e1, e2, e3, e4, e5, e6, e7, e8, e9]; simp [List.append_assoc]
  · intro hm
    simp only [List.mem_cons, List.mem_append] at hm
    rcases hm with h' | h' | h' | h' | h' | h' | h' | h' | h'
    · exact absurd h' (by decide)
    · exact absurd (hsp1 _ h') (by decide)
    · exact hc3 h'
    · exact hc4 h'
    · exact hc5 h'
    · exact hc6 h'
    · exact hc7 h'
    · exact absurd (hsp2 _ h') (by decide)
    · exact absurd h' (by decide)

theorem parse_peer_meta_object_nonl {s r : Str} {m : PeerDependencyMeta}
    (h : parse_peer_meta_object s = .ok r m) :
    ∃ c, s = c ++ r ∧ '\n' ∉ c := by
  unfold parse_peer_meta_object at h
  obtain ⟨r1, u1, h1, h⟩ := PR.bind_ok h
  obtain ⟨r2, sp1, h2, h⟩ := PR.bind_ok h
  obtain ⟨r3, b3, h3, h⟩ := PR.bind_ok h
  obtain ⟨r4, u4, h4, h⟩ := PR.bind_ok h
  simp only [PR.ok.injEq] at h
  obtain ⟨rfl, -⟩ := h
  have e1 := charP_ok h1
  obtain ⟨e2, hsp1⟩ := takeWhileP_ok h2
  obtain ⟨c3, e3, hc3⟩ := parse_bool_property_nonl (by decide) h3
  have e4 := charP_ok h4
  refine ⟨'\x7b' :: (sp1 ++ (c3 ++ ['\x7d'])), ?_, ?_⟩
  · rw [e1, e2, e3, e4]; simp [List.append_assoc]
  · intro hm
    simp only [List.mem_cons, List.mem_append] at hm
    rcases hm with h' | h' | h' | h'
    · exact absurd h' (by decide)
    · exact absurd (hsp1 _ h') (by decide)
    · exact hc3 h'
    · exact absurd h' (by decide)

theorem parse_dependency_meta_line_shape {s r : Str}
    {kv : Str × DependencyMeta}
    (h : parse_dependency_meta_line s = .ok r kv) :
    ∃ c, s = c ++ r ∧ c ≠ [] ∧ GoodChunk c := by
  unfold parse_dependency_meta_line at h
  obtain ⟨r1, u1, h1, h⟩ := PR.bind_ok h
  obtain ⟨r2, nm, h2, h⟩ := PR.bind_ok h
  obtain ⟨r3, u3, h3, h⟩ := PR.bind_ok h
  obtain ⟨r4, sp, h4, h⟩ := PR.bind_ok h
  obtain ⟨r5, mo, h5, h⟩ := PR.bind_ok h
  obtain ⟨r6, u6, h6, h⟩ := PR.bind_ok h
  simp only [PR.ok.injEq] at h
  obtain ⟨rfl, -⟩ := h
  have e1 := tagP_ok h1
  obtain ⟨e2, -, hnm⟩ := takeWhile1P_ok h2
  have e3 := charP_ok h3
  obtain ⟨e4, -, hsp⟩ := takeWhile1P_ok h4
  obtain ⟨c5, e5, hc5⟩ := parse_meta_object_nonl h5
  have e6 := charP_ok h6
  refine sl_shape
    (d := ' ' :: ' ' :: ' ' :: ' ' :: (nm ++ ':' :: (sp ++ c5))) ?_ ?_ (by simp)
  · rw [e1, e2, e3, e4, e5, e6]; simp [List.append_assoc]
  · intro hm
    simp only [List.mem_cons, List.mem_append] at hm
    rcases hm with h' | h' | h' | h' | h' | h' | h' | h'
    · exact absurd h' (by decide)
    · exact absurd h' (by decide)
    · exact absurd h' (by decide)
    · exact absurd h' (by decide)
    · exact absurd (hnm _ h') (by decide)
    · exact absurd h' (by decide)
    · exact absurd (hsp _ h') (by decide)
    · exact hc5 h'

theorem parse_peer_dependency_meta_line_shape {s r : Str}
    {kv : Str × PeerDependencyMeta}
    (h : parse_peer_dependency_meta_line s = .ok r kv) :
    ∃ c, s = c ++ r ∧ c ≠ [] ∧ GoodChunk c := by
  unfold parse_peer_dependency_meta_line at h
  obtain ⟨r1, u1, h1, h⟩ := PR.bind_ok h
  obtain ⟨r2, nm, h2, h⟩ := PR.bind_ok h
  obtain ⟨r3, u3, h3, h⟩ := PR.bind_ok h
  obtain ⟨r4, sp, h4, h⟩ := PR.bind_ok h
  obtain ⟨r5, mo, h5, h⟩ := PR.bind_ok h
  obtain ⟨r6, u6, h6, h⟩ := PR.bind_ok h
  simp only [PR.ok.injEq] at h
  obtain ⟨rfl, -⟩ := h
  have e1 := tagP_ok h1
  obtain ⟨e2, -, hnm⟩ := takeWhile1P_ok h2
  have e3 := charP_ok h3
  obtain ⟨e4, -, hsp⟩ := takeWhile1P_ok h4
  obtain ⟨c5, e5, hc5⟩ := parse_peer_meta_object_nonl h5
  have e6 := charP_ok h6
  refine sl_shape
    (d := ' ' :: ' ' :: ' ' :: ' ' :: (nm ++ ':' :: (sp ++ c5))) ?_ ?_ (by simp)
  · rw [e1, e2, e3, e4, e5, e6]; simp [List.append_assoc]
  · intro hm
    simp only [List.mem_cons, List.mem_append] at hm
    rcases hm with h' | h' | h' | h' | h' | h' | h' | h'
    · exact absurd h' (by decide)
    · exact absurd h' (by decide)
    · exact absurd h' (by decide)
    · exact absurd h' (by decide)
    · exact absurd (hnm _ h') (by decide)
    · exact absurd h' (by decide)
    · exact absurd (hsp _ h') (by decide)
    · exact hc5 h'

theorem mapP_ok {α β : Type} {x : PR α} {f : α → β} {r : Str} {v : β}
    (h : mapP x f = .ok r v) : ∃ v', x = .ok r v' ∧ v = f v' := by
  cases x with
  | ok r' v' =>
    simp only [mapP, PR.ok.injEq] at h
    exact ⟨v', by rw [h.1], h.2.symm⟩
  | err => cases h
  | panic => cases h

theorem orElseP_ok {α : Type} {x : PR α} {y : Unit → PR α} {r : Str} {v : α}
    (h : orElseP x y = .ok r v) : x = .ok r v ∨ y () = .ok r v := by
  cases x with
  | ok r' v' => exact Or.inl (by simpa [orElseP] using h)
  | err => exact Or.inr (by simpa [orElseP] using h)
  | panic => exact Or.inr (by simpa [orElseP] using h)

theorem block_shape_generic {α : Type} {hdr : Str} {lineP : Str → PR α}
    (hhdr1 : '\n' ∉ hdr) (hhdr2 : hdr.head? ≠ some '"')
    (hline : ∀ s r v, lineP s = .ok r v →
      ∃ c, s = c ++ r ∧ c ≠ [] ∧ GoodChunk c)
    {s r : Str} {l : List α}
    (h : ((tagP hdr s).bind fun s _ =>
          (charP '\n' s).bind fun s _ => many0P lineP s) = .ok r l) :
    ∃ c, s = c ++ r ∧ c ≠ [] ∧ GoodChunk c := by
  obtain ⟨r1, u1, h1, h⟩ := PR.bind_ok h
  obtain ⟨r2, u2, h2, h⟩ := PR.bind_ok h
  have e1 := tagP_ok h1
  have e2 := charP_ok h2
  obtain ⟨chunks, e3, -, hQ, -⟩ :=
    many0P_inv_spec lineP (fun _ => True) GoodChunk
      (fun s r v _ hok => by
        obtain ⟨c, hc1, hc2, hc3⟩ := hline s r v hok
        exact ⟨c, hc1, hc2, hc3, trivial⟩)
      r2 r l trivial h
  refine ⟨(hdr ++ ['\n']) ++ chunks.flatten, ?_, by simp, ?_⟩
  · rw [e1, e2, e3]; simp [List.append_assoc]
  · exact GoodChunk.append (SLChunk.good ⟨hdr, rfl, hhdr1, hhdr2⟩)
      (GoodChunk.flatten hQ)

theorem parse_dependencies_block_shape {s r : Str} {l : List (Str × Str)}
    (h : parse_dependencies_block s = .ok r l) :
    ∃ c, s = c ++ r ∧ c ≠ [] ∧ GoodChunk c :=
  block_shape_generic (by decide) (by decide)
    (fun _ _ _ hv => parse_dependency_line_shape hv) h

theorem parse_peer_dependencies_block_shape {s r : Str}
    {l : List (Str × Str)} (h : parse_peer_dependencies_block s = .ok r l) :
    ∃ c, s = c ++ r ∧ c ≠ [] ∧ GoodChunk c :=
  block_shape_generic (by decide) (by decide)
    (fun _ _ _ hv => parse_dependency_line_shape hv) h

theorem parse_bin_block_shape {s r : Str} {l : List (Str × Str)}
    (h : parse_bin_block s = .ok r l) :
    ∃ c, s = c ++ r ∧ c ≠ [] ∧ GoodChunk c :=
  block_shape_generic (by decide) (by decide)
    (fun _ _ _ hv => parse_bin_line_shape hv) h

theorem parse_dependencies_meta_block_shape {s r : Str}
    {l : List (Str × DependencyMeta)}
    (h : parse_dependencies_meta_block s = .ok r l) :
    ∃ c, s = c ++ r ∧ c ≠ [] ∧ GoodChunk c :=
  block_shape_generic (by decide) (by decide)
    (fun _ _ _ hv => parse_dependency_meta_line_shape hv) h

theorem parse_peer_dependencies_meta_block_shape {s r : Str}
    {l : List (Str × PeerDependencyMeta)}
    (h : parse_peer_dependencies_meta_block s = .ok r l) :
    ∃ c, s = c ++ r ∧ c ≠ [] ∧ GoodChunk c :=
  block_shape_generic (by decide) (by decide)
    (fun _ _ _ hv => parse_peer_dependency_meta_line_shape hv) h

theorem parse_property_line_shape {s r : Str} {v : PropertyValue}
    (h : parse_property_line s = .ok r v) :
    ∃ c, s = c ++ r ∧ c ≠ [] ∧ GoodChunk c := by
  unfold parse_property_line at h
  rcases orElseP_ok h with h | h
  · obtain ⟨v', h', -⟩ := mapP_ok h
    exact parse_simple_property_shape h'
  rcases orElseP_ok h with h | h
  · obtain ⟨v', h', -⟩ := mapP_ok h
    exact parse_dependencies_block_shape h'
  rcases orElseP_ok h with h | h
  · obtain ⟨v', h', -⟩ := mapP_ok h
    exact parse_peer_dependencies_block_shape h'
  rcases orElseP_ok h with h | h
  · obtain ⟨v', h', -⟩ := mapP_ok h
    exact parse_bin_block_shape h'
  rcases orElseP_ok h with h | h
  · obtain ⟨v', h', -⟩ := mapP_ok h
    exact parse_dependencies_meta_block_shape h'
  rcases orElseP_ok h with h | h
  · obtain ⟨v', h', -⟩ := mapP_ok h
    exact parse_peer_dependencies_meta_block_shape h'
  · cases h

theorem cntQ_cons_nl (x : Str) (f : Bool) :
    cntQ ('\n' :: x) f = cntQ x true := by
  simp [cntQ]

theorem nlAfter_cons_nl (x : Str) (f : Bool) :
    nlAfter ('\n' :: x) f = nlAfter x true := by
  simp [nlAfter]

theorem parse_package_properties_shape {s r : Str} {pkg : Package}
    (h : parse_package_properties s = .ok r pkg) :
    ∃ c, s = c ++ r ∧ GoodChunk c := by
  unfold parse_package_properties at h
  obtain ⟨r1, props, h1, h⟩ := PR.bind_ok h
  obtain ⟨r2, o2, h2, h⟩ := PR.bind_ok h
  have hr : r = r2 := by
    cases hap : applyProperties (Package.new "unknown".toList .hard) props with
    | some p' =>
      rw [hap] at h
      simp only [PR.ok.injEq] at h
      exact h.1.symm
    | none => rw [hap] at h; cases h
  subst hr
  obtain ⟨chunks, e1, -, hQ, -⟩ :=
    many0P_inv_spec parse_property_line (fun _ => True) GoodChunk
      (fun s r v _ hok => by
        obtain ⟨c, hc1, hc2, hc3⟩ := parse_property_line_shape hok
        exact ⟨c, hc1, hc2, hc3, trivial⟩)
      s r1 props trivial h1
  rcases optP_ok h2 with ⟨rfl, -⟩ | ⟨a, -, hch⟩
  · exact ⟨chunks.flatten, by simpa using e1, GoodChunk.flatten hQ⟩
  · have e2 := charP_ok hch
    refine ⟨chunks.flatten ++ ['\n'], ?_, ?_⟩
    · rw [e1, e2]; simp [List.append_assoc]
    · exact GoodChunk.append (GoodChunk.flatten hQ) ⟨rfl, rfl⟩

theorem parse_descriptor_line_shape {s r : Str} {ds : List Descriptor}
    (h : parse_descriptor_line s = .ok r ds) (hk : keyLineOk s = true) :
    ∃ c, s = c ++ r ∧ c ≠ [] ∧ c.head? = some '"' ∧ '\n' ∉ c := by
  unfold parse_descriptor_line at h
  obtain ⟨r1, u1, h1, h⟩ := PR.bind_ok h
  obtain ⟨r2, dstr, h2, h⟩ := PR.bind_ok h
  obtain ⟨r3, u3, h3, h⟩ := PR.bind_ok h
  obtain ⟨r4, fst, h4, h⟩ := PR.bind_ok h
  obtain ⟨r5, oth, h5, h⟩ := PR.bind_ok h
  have hr : r = r3 := by
    by_cases he : r5.isEmpty
    · rw [if_pos he] at h
      simp only [PR.ok.injEq] at h
      exact h.1.symm
    · rw [if_neg he] at h; cases h
  subst hr
  have e1 := charP_ok h1
  obtain ⟨e2, i, hfind, hdstr⟩ := takeUntilP_ok h2
  have e3 := tagP_ok h3
  have hnl : '\n' ∉ dstr := by
    rw [e1] at hk
    have hk' : (match findSub ['"', ':'] r1 with
        | some i => !((r1.take i).contains '\n')
        | none => true) = true := by
      simpa [keyLineOk] using hk
    rw [hfind] at hk'
    dsimp only at hk'
    intro hm
    have : (r1.take i).contains '\n' = true := by
      simpa using (hdstr ▸ hm)
    rw [this] at hk'
    simp at hk'
  refine ⟨'"' :: (dstr ++ '"' :: ':' :: []), ?_, by simp, by simp, ?_⟩
  · rw [e1, e2, e3]; simp [List.append_assoc]
  · intro hm
    simp only [List.mem_cons, List.mem_append] at hm
    rcases hm with h' | h' | h' | h' | h'
    · exact absurd h' (by decide)
    · exact hnl h'
    · exact absurd h' (by decide)
    · exact absurd h' (by decide)
    · simp at h'

theorem parse_package_only_shape {s r : Str} {pkg : Package}
    (h : parse_package_only s = .ok r pkg) (hk : keyLineOk s = true) :
    ∃ c, s = c ++ r ∧ c ≠ [] ∧ KeyChunk c := by
  unfold parse_package_only at h
  cases hpe : parse_package_entry s with
  | err => rw [hpe] at h; cases h
  | panic => rw [hpe] at h; cases h
  | ok r' dp =>
    obtain ⟨ds', pkg'⟩ := dp
    rw [hpe] at h
    simp only [PR.ok.injEq] at h
    obtain ⟨rfl, -⟩ := h
    unfold parse_package_entry at hpe
    obtain ⟨r1, ds1, h1, hpe⟩ := PR.bind_ok hpe
    obtain ⟨r2, u2, h2, hpe⟩ := PR.bind_ok hpe
    obtain ⟨r3, pkg3, h3, hpe⟩ := PR.bind_ok hpe
    simp only [PR.ok.injEq] at hpe
    obtain ⟨rfl, -⟩ := hpe
    obtain ⟨cd, ed, hdne, hdhead, hdnl⟩ := parse_descriptor_line_shape h1 hk
    have e2 := charP_ok h2
    obtain ⟨cp, ep, hgp⟩ := parse_package_properties_shape h3
    refine ⟨cd ++ '\n' :: cp, ?_, by simp [hdne], ?_, ?_⟩
    · rw [ed, e2, ep]; simp [List.append_assoc]
    · -- cntQ (cd ++ '\n' :: cp) true = 1
      obtain ⟨t, rfl⟩ : ∃ t, cd = '"' :: t := by
        cases cd with
        | nil => cases hdhead
        | cons x t =>
          simp only [List.head?_cons, Option.some.injEq] at hdhead
          exact ⟨t, by rw [hdhead]⟩
      have htnl : '\n' ∉ t := fun hm => hdnl (by simp [hm])
      rw [cntQ_append, cntQ_cons_nl, hgp.1]
      simp [cntQ, cntQ_false_of_no_nl htnl]
    · rw [nlAfter_append, nlAfter_cons_nl, hgp.2]

theorem headerLine_shape {s r : Str} {u : Unit}
    (h : headerLine s = .ok r u) :
    ∃ c, s = c ++ r ∧ c ≠ [] ∧ GoodChunk c := by
  unfold headerLine at h
  rcases hcm : ((charP '#' s).bind fun s _ =>
      (takeWhileP (fun c => c != '\n') s).bind fun s _ =>
      (charP '\n' s).bind fun s _ => PR.ok s ()) with ⟨rc, vc⟩ | - | -
  · rw [hcm] at h
    simp only [PR.ok.injEq] at h
    obtain ⟨rfl, -⟩ := h
    obtain ⟨r1, u1, h1, hcm⟩ := PR.bind_ok hcm
    obtain ⟨r2, mid, h2, hcm⟩ := PR.bind_ok hcm
    obtain ⟨r3, u3, h3, hcm⟩ := PR.bind_ok hcm
    simp only [PR.ok.injEq] at hcm
    obtain ⟨rfl, -⟩ := hcm
    have e1 := charP_ok h1
    obtain ⟨e2, hmid⟩ := takeWhileP_ok h2
    have e3 := charP_ok h3
    refine sl_shape (d := '#' :: mid) ?_ ?_ (by simp)
    · rw [e1, e2, e3]; simp [List.append_assoc]
    · intro hm
      rcases List.mem_cons.mp hm with h' | h'
      · exact absurd h' (by decide)
      · exact absurd (hmid _ h') (by decide)
  all_goals {
    rw [hcm] at h
    obtain ⟨r1, sp, h1, h⟩ := PR.bind_ok h
    obtain ⟨r2, oc, h2, h⟩ := PR.bind_ok h
    obtain ⟨r3, u3, h3, h⟩ := PR.bind_ok h
    simp only [PR.ok.injEq] at h
    obtain ⟨rfl, -⟩ := h
    obtain ⟨e1, hsp⟩ := takeWhileP_ok h1
    have e3 := charP_ok h3
    have hoc : ∃ w, r1 = w ++ r2 ∧ '\n' ∉ w ∧
        (w = [] ∨ w = ['\r']) := by
      rcases optP_ok h2 with ⟨rfl, -⟩ | ⟨a, -, hca⟩
      · exact ⟨[], by simp, by simp, Or.inl rfl⟩
      · have := charP_ok hca
        exact ⟨['\r'], this, by decide, Or.inr rfl⟩
    obtain ⟨w, e2, hwnl, hw⟩ := hoc
    refine sl_shape (d := sp ++ w) ?_ ?_ ?_
    · rw [e1, e2, e3]; simp [List.append_assoc]
    · intro hm
      rcases List.mem_append.mp hm with h' | h'
      · exact absurd (hsp _ h') (by decide)
      · exact hwnl h'
    · intro heq
      cases hspc : sp with
      | cons x t =>
        rw [hspc] at heq
        simp only [List.cons_append, List.head?_cons,
          Option.some.injEq] at heq
        subst heq
        exact absurd (hsp '"' (by simp [hspc])) (by decide)
      | nil =>
        rw [hspc] at heq
        rcases hw with rfl | rfl
        · simp at heq
        · simp at heq }

theorem parse_yarn_header_shape {s r : Str} {u : Unit × Unit}
    (h : parse_yarn_header s = .ok r u) :
    ∃ c, s = c ++ r ∧ GoodChunk c := by
  unfold parse_yarn_header at h
  obtain ⟨r1, l1, h1, h⟩ := PR.bind_ok h
  simp only [PR.ok.injEq] at h
  obtain ⟨rfl, -⟩ := h
  obtain ⟨chunks, e1, -, hQ, -⟩ :=
    many0P_inv_spec headerLine (fun _ => True) GoodChunk
      (fun s r v _ hok => by
        obtain ⟨c, hc1, hc2, hc3⟩ := headerLine_shape hok
        exact ⟨c, hc1, hc2, hc3, trivial⟩)
      s r1 l1 trivial h1
  exact ⟨chunks.flatten, e1, GoodChunk.flatten hQ⟩

theorem parse_metadata_shape {s r : Str} {md : Metadata}
    (h : parse_metadata s = .ok r md) :
    ∃ c, s = c ++ r ∧ GoodChunk c := by
  unfold parse_metadata at h
  obtain ⟨r1, u1, h1, h⟩ := PR.bind_ok h
  obtain ⟨r2, u2, h2, h⟩ := PR.bind_ok h
  obtain ⟨r3, l1, h3, h⟩ := PR.bind_ok h
  obtain ⟨r4, l2, h4, h⟩ := PR.bind_ok h
  simp only [PR.ok.injEq] at h
  obtain ⟨rfl, -⟩ := h
  have e1 := tagP_ok h1
  have e2 := charP_ok h2
  obtain ⟨c3, e3, -, hg3⟩ := parse_metadata_line_shape h3
  obtain ⟨c4, e4, -, hg4⟩ := parse_metadata_line_shape h4
  refine ⟨("__metadata:".toList ++ ['\n']) ++ (c3 ++ c4), ?_, ?_⟩
  · rw [e1, e2, e3, e4]; simp [List.append_assoc]
  · exact GoodChunk.append
      (SLChunk.good ⟨"__metadata:".toList, rfl, by decide, by decide⟩)
      (GoodChunk.append hg3 hg4)

/-- C8: for every string `s`, `Range::from_raw(s).raw() == s`; the raw text
equals `protocol_str ++ ":" ++ selector` whenever a protocol is present, and
equals the selector exactly when no `:` occurs in the raw string. -/
theorem c8_range_raw_decomposition (s : Str) :
    (Range.from_raw s).raw = s ∧
    (Range.from_raw s).raw =
      (match (Range.from_raw s).protocol_str with
       | some p => p ++ ':' :: (Range.from_raw s).selector
       | none => (Range.from_raw s).selector) ∧
    ((Range.from_raw s).protocol_str = none ↔ ':' ∉ s) := by
  refine ⟨rfl, ?_, ?_⟩
  · cases h : firstIdx (· == ':') s with
    | none => simp [Range.from_raw, Range.protocol_str, Range.selector, h]
    | some i =>
      obtain ⟨c, hc, hsplit⟩ := firstIdx_spec h
      have hcc : c = ':' := by simpa using hc
      subst hcc
      simpa [Range.from_raw, Range.protocol_str, Range.selector, h]
        using hsplit
  · constructor
    · intro h hmem
      have hn : firstIdx (· == ':') s = none := by
        simpa [Range.from_raw, Range.protocol_str] using h
      have := firstIdx_none_mem hn ':' hmem
      simp at this
    · intro h
      have : firstIdx (· == ':') s = none :=
        firstIdx_eq_none (fun c hc =>
          beq_eq_false_iff_ne.mpr (fun he => h (he ▸ hc)))
      simp [Range.from_raw, Range.protocol_str, this]

/-- C9: a dependency name beginning with `@` but containing no `/` falls
back to an `Ident` with no scope and the full name including the `@`; the
same fallback function is used for header-key names, and the dependency
mapping is keyed by that `Ident` (shown for the line `    @foo: 1.0.0`). -/
theorem c9_at_scope_fallback (name : Str) (h1 : name.head? = some '@')
    (h2 : '/' ∉ name) :
    parse_dependency_name_to_ident name = ⟨none, name⟩ ∧
    parse_name_to_ident name = ⟨none, name⟩ ∧
    parse_package_properties ("  dependencies:\n    @foo: 1.0.0\n".toList) =
      .ok [] ⟨none, none, "unknown".toList, .hard, none, none,
        [(⟨none, "@foo".toList⟩,
          Descriptor.new ⟨none, "@foo".toList⟩ "1.0.0".toList)],
        [], [], [], []⟩ := by
  cases name with
  | nil => simp at h1
  | cons c t =>
    have hc : c = '@' := by simpa using h1
    subst hc
    have ht : '/' ∉ t := fun hm => h2 (by simp [hm])
    have hn : firstIdx (· == '/') t = none :=
      firstIdx_eq_none (fun c hc =>
        beq_eq_false_iff_ne.mpr (fun he => ht (he ▸ hc)))
    refine ⟨?_, ?_, by rfl⟩
    · simp [parse_dependency_name_to_ident, hn]
    · simp [parse_name_to_ident, hn]

/-- Witness for C9 at the concrete name `@foo`. -/
theorem c9_at_scope_fallback_witness :
    parse_dependency_name_to_ident "@foo".toList = ⟨none, "@foo".toList⟩ ∧
    parse_name_to_ident "@foo".toList = ⟨none, "@foo".toList⟩ :=
  ⟨(c9_at_scope_fallback "@foo".toList (by decide) (by decide)).1,
   (c9_at_scope_fallback "@foo".toList (by decide) (by decide)).2.1⟩

/-- C10: a package key line followed by zero indented property lines is
accepted, yielding a `Package` with `version`, `resolution`, `checksum`,
`conditions` all `None`, `languageName` `"unknown"`, `linkType` `Hard`, and
all five mappings empty. -/
theorem c10_empty_property_body (input r : Str) (ds : List Descriptor)
    (h1 : parse_descriptor_line input = .ok ('\n' :: r) ds)
    (h2 : parse_property_line r = .err)
    (h3 : r.head? ≠ some '\n') :
    parse_package_entry input =
      .ok r (ds, ⟨none, none, "unknown".toList, .hard, none, none,
        [], [], [], [], []⟩) := by
  have hc : charP '\n' r = .err := by
    cases r with
    | nil => rfl
    | cons c t =>
      have : c ≠ '\n' := fun h => h3 (by simp [h])
      simp [charP, this]
  unfold parse_package_entry
  rw [h1]
  simp only [PR.bind]
  rw [charP_cons]
  simp only [PR.bind]
  unfold parse_package_properties
  rw [many0P_of_err h2]
  simp only [PR.bind]
  rw [optP_of_err hc]
  simp [PR.bind, applyProperties, Package.new]

/-- Witness for C10 at the concrete entry `"a@*":` with no property lines. -/
theorem c10_empty_property_body_witness :
    parse_package_entry ("\"a@*\":\n".toList) =
      .ok [] ([Descriptor.new ⟨none, "a".toList⟩ "*".toList],
        ⟨none, none, "unknown".toList, .hard, none, none,
         [], [], [], [], []⟩) :=
  c10_empty_property_body ("\"a@*\":\n".toList) [] _ (by rfl) (by rfl)
    (by decide)

/-- C1 fails on the code: `parse_lockfile` builds entries through
`parse_package_only`, which discards the descriptors, so the returned
`Package` carries no descriptor sequence.  Two lockfiles that differ only in
their key line (two keys vs one, different idents and ranges) yield equal
entry values, so no function of the entry can recover the claimed
per-package descriptors. -/
theorem c1_counterexample :
    parse_package_entry
        ("\"c@*, c@workspace:packages/c\":\n  version: 1.0.0\n".toList) =
      .ok [] ([Descriptor.new ⟨none, "c".toList⟩ "*".toList,
               Descriptor.new ⟨none, "c".toList⟩ "workspace:packages/c".toList],
        ⟨some "1.0.0".toList, none, "unknown".toList, .hard, none, none,
         [], [], [], [], []⟩) ∧
    parse_package_entry ("\"d@npm:2.0.0\":\n  version: 1.0.0\n".toList) =
      .ok [] ([Descriptor.new ⟨none, "d".toList⟩ "npm:2.0.0".toList],
        ⟨some "1.0.0".toList, none, "unknown".toList, .hard, none, none,
         [], [], [], [], []⟩) ∧
    parse_lockfile
        (("__metadata:\n  version: 8\n  cacheKey: 10\n\n" ++
          "\"c@*, c@workspace:packages/c\":\n  version: 1.0.0\n").toList) =
      .ok [] ⟨⟨"8".toList, "10".toList⟩,
        [⟨some "1.0.0".toList, none, "unknown".toList, .hard, none, none,
          [], [], [], [], []⟩]⟩ ∧
    parse_lockfile
        (("__metadata:\n  version: 8\n  cacheKey: 10\n\n" ++
          "\"d@npm:2.0.0\":\n  version: 1.0.0\n").toList) =
      .ok [] ⟨⟨"8".toList, "10".toList⟩,
        [⟨some "1.0.0".toList, none, "unknown".toList, .hard, none, none,
          [], [], [], [], []⟩]⟩ ∧
    ¬ ∃ f : Package → List Descriptor,
        ∀ (input rest : Str) (ds : List Descriptor) (pkg : Package),
          parse_package_entry input = .ok rest (ds, pkg) → f pkg = ds := by
  have h1 : parse_package_entry
      ("\"c@*, c@workspace:packages/c\":\n  version: 1.0.0\n".toList) =
      .ok [] ([Descriptor.new ⟨none, "c".toList⟩ "*".toList,
               Descriptor.new ⟨none, "c".toList⟩ "workspace:packages/c".toList],
        ⟨some "1.0.0".toList, none, "unknown".toList, .hard, none, none,
         [], [], [], [], []⟩) := by rfl
  have h2 : parse_package_entry ("\"d@npm:2.0.0\":\n  version: 1.0.0\n".toList) =
      .ok [] ([Descriptor.new ⟨none, "d".toList⟩ "npm:2.0.0".toList],
        ⟨some "1.0.0".toList, none, "unknown".toList, .hard, none, none,
         [], [], [], [], []⟩) := by rfl
  refine ⟨h1, h2, by rfl, by rfl, ?_⟩
  rintro ⟨f, hf⟩
  have e1 := hf _ _ _ _ h1
  have e2 := hf _ _ _ _ h2
  exact absurd (e1.symm.trans e2) (by decide)

/-- C1, amended: the descriptor list exists only at the
`parse_package_entry` level — the key line
`"c@*, c@workspace:packages/c":` yields two descriptors in source order with
ranges `*` and `workspace:packages/c`, both with ident `(None, "c")` — and
`parse_package_only` (hence `parse_lockfile`) drops it. -/
theorem c1_amended_descriptors_at_entry_level :
    parse_descriptor_line ("\"c@*, c@workspace:packages/c\":".toList) =
      .ok [] [Descriptor.new ⟨none, "c".toList⟩ "*".toList,
              Descriptor.new ⟨none, "c".toList⟩ "workspace:packages/c".toList] ∧
    [Descriptor.new ⟨none, "c".toList⟩ "*".toList,
     Descriptor.new ⟨none, "c".toList⟩ "workspace:packages/c".toList].length
      = 2 ∧
    [Descriptor.new ⟨none, "c".toList⟩ "*".toList,
     Descriptor.new ⟨none, "c".toList⟩
       "workspace:packages/c".toList].map Descriptor.rangeRaw =
      ["*".toList, "workspace:packages/c".toList] ∧
    [Descriptor.new ⟨none, "c".toList⟩ "*".toList,
     Descriptor.new ⟨none, "c".toList⟩
       "workspace:packages/c".toList].map Descriptor.ident =
      [⟨none, "c".toList⟩, ⟨none, "c".toList⟩] ∧
    parse_package_only
        ("\"c@*, c@workspace:packages/c\":\n  version: 1.0.0\n".toList) =
      .ok [] ⟨some "1.0.0".toList, none, "unknown".toList, .hard, none, none,
        [], [], [], [], []⟩ :=
  ⟨by rfl, by rfl, by rfl, by rfl, by rfl⟩

/-- C2 fails on the code: with `cacheKey` written first, `parse_metadata`
stores the value next to `cacheKey` in the `version` field (positional
binding), so `version` is `"10"` and not the value `"8"` written next to
the `version` key. -/
theorem c2_counterexample :
    parse_metadata ("__metadata:\n  cacheKey: 10\n  version: 8\n".toList) =
      .ok [] ⟨"10".toList, "8".toList⟩ ∧
    ("10".toList : Str) ≠ "8".toList :=
  ⟨by rfl, by decide⟩

/-- C2, amended: `parse_metadata` binds the two indented lines positionally
— the first line's value becomes `version` and the second's `cacheKey`,
regardless of the keys written on the lines (quotes stripped from the
values).  The claimed behaviour holds exactly when the `version` line is
written first. -/
theorem c2_amended_positional_binding (k1 v1 k2 v2 : Str)
    (hk1ne : k1 ≠ []) (hk1 : ∀ c ∈ k1, (c.isAlpha || c == '_') = true)
    (hk2ne : k2 ≠ []) (hk2 : ∀ c ∈ k2, (c.isAlpha || c == '_') = true)
    (hv1ne : v1 ≠ []) (hv1c : ∀ c ∈ v1, c ≠ '\r' ∧ c ≠ '\n')
    (hv1h : v1.head?.any (fun c => c == ' ' || c == '\t') = false)
    (hv2ne : v2 ≠ []) (hv2c : ∀ c ∈ v2, c ≠ '\r' ∧ c ≠ '\n')
    (hv2h : v2.head?.any (fun c => c == ' ' || c == '\t') = false) :
    parse_metadata ("__metadata:\n  ".toList ++ (k1 ++ (": ".toList ++
        (v1 ++ ("\n  ".toList ++ (k2 ++ (": ".toList ++
          (v2 ++ "\n".toList)))))))) =
      .ok [] ⟨trimMatches '"' v1, trimMatches '"' v2⟩ := by
  show parse_metadata ("__metadata:".toList ++ '\n' :: ' ' :: ' ' ::
      (k1 ++ ':' :: ' ' :: (v1 ++ '\n' :: ' ' :: ' ' ::
        (k2 ++ ':' :: ' ' :: (v2 ++ ['\n']))))) =
    .ok [] ⟨trimMatches '"' v1, trimMatches '"' v2⟩
  unfold parse_metadata
  rw [tagP_self]
  simp only [PR.bind]
  rw [charP_cons]
  simp only [PR.bind]
  rw [parse_metadata_line_build k1 v1 _ hk1ne hk1 hv1ne hv1c hv1h]
  simp only [PR.bind]
  rw [parse_metadata_line_build k2 v2 [] hk2ne hk2 hv2ne hv2c hv2h]

/-- Witness for C2's amended theorem at the conventional key order. -/
theorem c2_amended_positional_binding_witness :
    parse_metadata ("__metadata:\n  version: 8\n  cacheKey: 10\n".toList) =
      .ok [] ⟨"8".toList, "10".toList⟩ :=
  c2_amended_positional_binding "version".toList "8".toList
    "cacheKey".toList "10".toList (by decide) (by decide) (by decide)
    (by decide) (by decide) (by decide) (by decide) (by decide) (by decide)
    (by decide)

/-- C3 is the spec's intent but the code rejects CRLF: every line parser
captures the value with `is_not("\r\n")` (stopping before the `\r`) but then
demands a bare `\n`, so the unconsumed `\r` makes metadata lines, property
lines and package entries — and hence whole lockfiles — fail to parse. -/
theorem c3_crlf_rejected :
    parse_simple_property ("  version: 1.0.0\n".toList) =
      .ok [] ("version".toList, "1.0.0".toList) ∧
    parse_simple_property ("  version: 1.0.0\r\n".toList) = .err ∧
    parse_metadata ("__metadata:\n  version: 8\n  cacheKey: 10\n".toList) =
      .ok [] ⟨"8".toList, "10".toList⟩ ∧
    parse_metadata
        ("__metadata:\r\n  version: 8\r\n  cacheKey: 10\r\n".toList) = .err ∧
    parse_package_entry ("\"a@*\":\n  version: 1.0.0\n".toList) =
      .ok [] ([Descriptor.new ⟨none, "a".toList⟩ "*".toList],
        ⟨some "1.0.0".toList, none, "unknown".toList, .hard, none, none,
         [], [], [], [], []⟩) ∧
    parse_package_entry ("\"a@*\":\r\n  version: 1.0.0\r\n".toList) = .err ∧
    parse_lockfile
        ("__metadata:\n  version: 8\n  cacheKey: 10\n\n\"a@*\":\n".toList) =
      .ok [] ⟨⟨"8".toList, "10".toList⟩,
        [⟨none, none, "unknown".toList, .hard, none, none,
          [], [], [], [], []⟩]⟩ ∧
    parse_lockfile
        ("__metadata:\r\n  version: 8\r\n  cacheKey: 10\r\n\r\n\"a@*\":\r\n".toList)
      = .err :=
  ⟨by rfl, by rfl, by rfl, by rfl, by rfl, by rfl, by rfl, by rfl⟩

/-- C4 is the spec's intent but the code panics: `parse_package_properties`
turns the `Err` of `LinkType::try_from` into `panic!("Invalid link type")`
via `unwrap_or_else`, so a `linkType` value that is neither `hard` nor
`soft` aborts instead of surfacing an `InvalidLinkType` error value. -/
theorem c4_invalid_link_type_panics :
    LinkType.tryFrom ("medium".toList) = none ∧
    parse_package_properties ("  linkType: medium\n".toList) = .panic ∧
    parse_lockfile
        (("__metadata:\n  version: 8\n  cacheKey: 10\n\n" ++
          "\"a@*\":\n  linkType: medium\n").toList) = .panic :=
  ⟨by rfl, by rfl, by rfl⟩

/-- C7 fails as stated: the code accepts a key whose quoted text contains a
line terminator (`take_until("\":")` scans across lines), and then the
number of lines beginning with `"` exceeds `entries.length` — here a single
block yields one entry but two quote-initial lines, with an empty
remainder. -/
theorem c7_counterexample :
    parse_lockfile
        ("__metadata:\n  version: 8\n  cacheKey: 10\n\"a@b\n\":\n".toList) =
      .ok [] ⟨⟨"8".toList, "10".toList⟩,
        [⟨none, none, "unknown".toList, .hard, none, none,
          [], [], [], [], []⟩]⟩ ∧
    countQuotedLines
        ("__metadata:\n  version: 8\n  cacheKey: 10\n\"a@b\n\":\n".toList) = 2 ∧
    ([(⟨none, none, "unknown".toList, .hard, none, none,
       [], [], [], [], []⟩ : Package)] : List Package).length = 1 ∧
    (1 : Nat) ≠ 2 :=
  ⟨by rfl, by rfl, by rfl, by decide⟩

/-- C7, amended: for every accepted input (successful parse whose remainder
is whitespace-only) in which every top-level key line is contained in one
source line (no `\n` strictly before the closing `":` of a block header, as
the spec's grammar requires), `entries.length` equals the number of lines
beginning with `"` at column 0, and the input splits into a prefix with no
such lines followed by one chunk per entry in source order: re-running
`parse_package_only` at the i-th chunk consumes exactly that chunk and
returns the i-th entry. -/
theorem c7_entries_in_source_order (input rest : Str) (lf : Lockfile)
    (hok : parse_lockfile input = .ok rest lf)
    (hws : ∀ c ∈ rest, isWsChar c = true)
    (hkey : ∀ b, LineStartSuffixOf b input → keyLineOk b = true) :
    lf.entries.length = countQuotedLines input ∧
    ∃ (pre : Str) (chunks : List Str),
      input = pre ++ (chunks.flatten ++ rest) ∧
      countQuotedLines pre = 0 ∧
      chunks.length = lf.entries.length ∧
      (∀ c ∈ chunks, countQuotedLines c = 1) ∧
      ∀ i pkg, lf.entries[i]? = some pkg →
        parse_package_only ((chunks.drop i).flatten ++ rest) =
          .ok ((chunks.drop (i + 1)).flatten ++ rest) pkg := by
  unfold parse_lockfile at hok
  obtain ⟨r1, u1, h1, hok⟩ := PR.bind_ok hok
  obtain ⟨r2, md, h2, hok⟩ := PR.bind_ok hok
  obtain ⟨r3, o3, h3, hok⟩ := PR.bind_ok hok
  obtain ⟨r4, pkgs, h4, hok⟩ := PR.bind_ok hok
  simp only [PR.ok.injEq] at hok
  obtain ⟨rfl, rfl⟩ := hok
  obtain ⟨ch, e1, hgh⟩ := parse_yarn_header_shape h1
  obtain ⟨cm, e2, hgm⟩ := parse_metadata_shape h2
  have ho : ∃ co, r2 = co ++ r3 ∧ GoodChunk co := by
    rcases optP_ok h3 with ⟨rfl, -⟩ | ⟨a, -, hca⟩
    · exact ⟨[], by simp, GoodChunk.nil⟩
    · exact ⟨['\n'], charP_ok hca, ⟨rfl, rfl⟩⟩
  obtain ⟨co, e3, hgo⟩ := ho
  have hgpre : GoodChunk (ch ++ (cm ++ co)) :=
    GoodChunk.append hgh (GoodChunk.append hgm hgo)
  have hpre_eq : input = (ch ++ (cm ++ co)) ++ r3 := by
    rw [e1, e2, e3]; simp [List.append_assoc]
  have hInv3 : LineStartSuffixOf r3 input := ⟨ch ++ (cm ++ co), hpre_eq, hgpre.2⟩
  have hp : ∀ s r v, LineStartSuffixOf s input →
      parse_package_only s = .ok r v →
      ∃ c, s = c ++ r ∧ c ≠ [] ∧ KeyChunk c ∧ LineStartSuffixOf r input := by
    intro s r v hs hokk
    obtain ⟨c, hc1, hc2, hc3⟩ := parse_package_only_shape hokk (hkey s hs)
    refine ⟨c, hc1, hc2, hc3, ?_⟩
    obtain ⟨a, ha1, ha2⟩ := hs
    refine ⟨a ++ c, by rw [ha1, hc1]; simp [List.append_assoc], ?_⟩
    rw [nlAfter_append, ha2, hc3.2]
  obtain ⟨chunks, e4, hlen, hQ, hpos⟩ :=
    many0P_inv_spec parse_package_only (fun s => LineStartSuffixOf s input)
      KeyChunk hp r3 r4 pkgs hInv3 h4
  have hrest_q : cntQ r4 true = 0 :=
    cntQ_of_no_quote (fun hm => absurd (hws '"' hm) (by decide)) true
  obtain ⟨hjc, hjn⟩ := KeyChunk.flatten_count hQ
  constructor
  · show pkgs.length = countQuotedLines input
    rw [countQuotedLines, hpre_eq, e4, cntQ_append, hgpre.1, hgpre.2,
      cntQ_append, hjc, hjn, hrest_q]
    omega
  · exact ⟨ch ++ (cm ++ co), chunks, by rw [hpre_eq, e4], hgpre.1,
      by simp [hlen], (fun c hc => (hQ c hc).1), hpos⟩

/-- Witness for C7's amended theorem on a one-block lockfile. -/
theorem c7_entries_in_source_order_witness :
    (Lockfile.mk ⟨"8".toList, "10".toList⟩
      [⟨none, none, "unknown".toList, .hard, none, none,
        [], [], [], [], []⟩]).entries.length =
      countQuotedLines
        ("__metadata:\n  version: 8\n  cacheKey: 10\n\"a@*\":\n".toList) ∧
    ∃ (pre : Str) (chunks : List Str),
      ("__metadata:\n  version: 8\n  cacheKey: 10\n\"a@*\":\n".toList : Str) =
        pre ++ (chunks.flatten ++ []) ∧
      countQuotedLines pre = 0 ∧
      chunks.length = (Lockfile.mk ⟨"8".toList, "10".toList⟩
        [⟨none, none, "unknown".toList, .hard, none, none,
          [], [], [], [], []⟩]).entries.length ∧
      (∀ c ∈ chunks, countQuotedLines c = 1) ∧
      ∀ i pkg,
        (Lockfile.mk ⟨"8".toList, "10".toList⟩
          [⟨none, none, "unknown".toList, .hard, none, none,
            [], [], [], [], []⟩]).entries[i]? = some pkg →
        parse_package_only ((chunks.drop i).flatten ++ []) =
          .ok ((chunks.drop (i + 1)).flatten ++ []) pkg :=
  c7_entries_in_source_order
    ("__metadata:\n  version: 8\n  cacheKey: 10\n\"a@*\":\n".toList) []
    (Lockfile.mk ⟨"8".toList, "10".toList⟩
      [⟨none, none, "unknown".toList, .hard, none, none,
        [], [], [], [], []⟩])
    (by rfl) (by simp)
    (fun b hb => by
      obtain ⟨a, ha, -⟩ := hb
      have hmem : b ∈
          ("__metadata:\n  version: 8\n  cacheKey: 10\n\"a@*\":\n".toList :
            Str).tails := by
        rw [List.mem_tails]
        exact ⟨a, ha.symm⟩
      exact (by decide :
        ∀ x ∈ ("__metadata:\n  version: 8\n  cacheKey: 10\n\"a@*\":\n".toList :
          Str).tails, keyLineOk x = true) b hmem)

/-- C6 fails on the code: `parse_metadata` never inspects the key names, so
a metadata block containing neither a `version` nor a `cacheKey` key parses
successfully (fields bound positionally) instead of failing with
`MissingMetadata`. -/
theorem c6_counterexample :
    parse_metadata ("__metadata:\n  foo: 1\n  bar: 2\n".toList) =
      .ok [] ⟨"1".toList, "2".toList⟩ :=
  by rfl

/-- C6, amended: `parse_metadata` never inspects key names — after
`__metadata:` and its newline it succeeds on any two lines of
metadata-line shape (indent, nonempty alphabetic/`_` key, `:`, space,
nonempty `\r`/`\n`-free value, newline), whatever the keys, binding the
first value to `version` and the second to `cacheKey`; if the first or the
second line is missing or not of that shape — e.g. a key with a digit,
which fails at `char(':')` — it returns the generic parse error (the code
has no distinguished `MissingMetadata` error). -/
theorem c6_amended_no_key_inspection (k1 v1 k2 v2 u : Str)
    (hk1ne : k1 ≠ []) (hk1 : ∀ c ∈ k1, (c.isAlpha || c == '_') = true)
    (hk2ne : k2 ≠ []) (hk2 : ∀ c ∈ k2, (c.isAlpha || c == '_') = true)
    (hv1ne : v1 ≠ []) (hv1c : ∀ c ∈ v1, c ≠ '\r' ∧ c ≠ '\n')
    (hv1h : v1.head?.any (fun c => c == ' ' || c == '\t') = false)
    (hv2ne : v2 ≠ []) (hv2c : ∀ c ∈ v2, c ≠ '\r' ∧ c ≠ '\n')
    (hv2h : v2.head?.any (fun c => c == ' ' || c == '\t') = false)
    (hu : parse_metadata_line u = .err) :
    parse_metadata ("__metadata:".toList ++ '\n' :: ' ' :: ' ' ::
        (k1 ++ ':' :: ' ' :: (v1 ++ '\n' :: ' ' :: ' ' ::
          (k2 ++ ':' :: ' ' :: (v2 ++ ['\n']))))) =
      .ok [] ⟨trimMatches '"' v1, trimMatches '"' v2⟩ ∧
    parse_metadata ("__metadata:".toList ++ '\n' :: ' ' :: ' ' ::
        (k1 ++ ':' :: ' ' :: (v1 ++ '\n' :: u))) = .err ∧
    parse_metadata ("__metadata:".toList ++ '\n' :: u) = .err ∧
    parse_metadata ("__metadata:\n  foo2: 1\n  bar: 2\n".toList) = .err := by
  refine ⟨?_, ?_, ?_, by rfl⟩
  · unfold parse_metadata
    rw [tagP_self]
    simp only [PR.bind]
    rw [charP_cons]
    simp only [PR.bind]
    rw [parse_metadata_line_build k1 v1 _ hk1ne hk1 hv1ne hv1c hv1h]
    simp only [PR.bind]
    rw [parse_metadata_line_build k2 v2 [] hk2ne hk2 hv2ne hv2c hv2h]
  · unfold parse_metadata
    rw [tagP_self]
    simp only [PR.bind]
    rw [charP_cons]
    simp only [PR.bind]
    rw [parse_metadata_line_build k1 v1 u hk1ne hk1 hv1ne hv1c hv1h]
    simp only [PR.bind]
    rw [hu]
  · unfold parse_metadata
    rw [tagP_self]
    simp only [PR.bind]
    rw [charP_cons]
    simp only [PR.bind]
    rw [hu]

/-- Witness for C6's amended theorem at keys `foo`/`bar` and the empty
remainder: a two-line block with neither `version` nor `cacheKey` parses
with positional binding; one line or zero lines fail; a `foo2` key fails. -/
theorem c6_amended_no_key_inspection_witness :
    parse_metadata ("__metadata:\n  foo: 1\n  bar: 2\n".toList) =
      .ok [] ⟨"1".toList, "2".toList⟩ ∧
    parse_metadata ("__metadata:\n  foo: 1\n".toList) = .err ∧
    parse_metadata ("__metadata:\n".toList) = .err ∧
    parse_metadata ("__metadata:\n  foo2: 1\n  bar: 2\n".toList) = .err := by
  have h := c6_amended_no_key_inspection "foo".toList "1".toList
    "bar".toList "2".toList [] (by decide) (by decide) (by decide)
    (by decide) (by decide) (by decide) (by decide) (by decide) (by decide)
    (by decide) (by rfl)
  exact h

end Berry
